import Mathlib

/-!
Verification of the arithmetic expression compiler in `src/main.c`.

The development shallowly embeds the pipeline of the program:
tokenizer → Pratt parser → AST → {tree-walking evaluator, bytecode
compiler + stack VM}.

Numeric values: the C program computes with IEEE-754 `double`.  Here a
value is a rational number `ℚ` standing for the real value held in a
double, and the arithmetic primitives of the two execution back ends
(`+ - * / fmod pow` and negation) are fields of a record `FOps`, so
that every theorem about the evaluator/VM correspondence holds for any
interpretation of the primitives — in particular for IEEE doubles,
whose rounding is not reproduced here.  The concrete instance `ratOps`
computes exactly; on the small-integer inputs exercised by the claims
the double computations of the C program are exact as well, so the two
coincide there.  Out-of-range literals (`strtod` setting `ERANGE`) are
not modelled: `ℚ` is unbounded, and no claim involves such literals.

All fallible C code paths (`exit(EXIT_FAILURE)` sites) are modelled
with `Except`.  Recursive procedures whose termination is not
structural (the tokenizer loop and the mutually recursive parser) take
an explicit fuel argument; the fuel supplied by the wrappers is
generous, and every theorem either evaluates a concrete input or
conditions on a successful (`.ok`) result, so fuel exhaustion — kept
as a distinguished error — never interferes.
-/

deriving instance DecidableEq for Except

namespace Arith

/-- Token kinds, `enum token_kind` in main.c. -/
inductive TokenKind where
  | number | plus | minus | star | slash | percent | caret | lparen | rparen | eof
deriving DecidableEq

/-- `struct token` in main.c.  `value` is the numeric payload of a
`number` token (`union token_value.number_value`); for operator tokens
the C union holds the matched character instead, which never influences
behaviour, so it is not modelled and `value` is 0 there.  `start`/`stop`
are the C fields `start`/`end` (`end` is a Lean keyword), inclusive byte
offsets. -/
structure Token where
  kind : TokenKind
  value : ℚ
  start : Nat
  stop : Nat
deriving DecidableEq

/-- Lexer failure modes.  `unknownChar` is the `"Unknown token '%c'"`
exit in `tokenize`; `invalidCharacter` the `"Invalid character"` exit in
`parse_number` (empty digit run); `invalidNumber` the
`"Invalid or out of range number"` exit after `strtod`;
`fuelExhausted` is a modelling artifact of the fuel-based recursion and
is unreachable with the fuel supplied by `tokenize`. -/
inductive LexErr where
  | unknownChar | invalidCharacter | invalidNumber | fuelExhausted
deriving DecidableEq

/-- C `isspace` on the default locale (ASCII whitespace). -/
def isSpaceC (c : Char) : Bool :=
  c = ' ' || c = '\t' || c = '\n' || c = '\x0b' || c = '\x0c' || c = '\r'

/-- `is_part_of_number` in main.c: digits, '.', 'e', 'E', and —
unconditionally — '+' and '-'. -/
def is_part_of_number (c : Char) : Bool :=
  c.isDigit || c = '.' || c = 'e' || c = 'E' || c = '+' || c = '-'

/-- Value of a digit string, most significant first. -/
def digitsVal (ds : List Char) : Nat :=
  ds.foldl (fun a c => 10 * a + (c.toNat - 48)) 0

/-- Model of `strtod(run, &end)` followed by main.c's check
`*end == '\0'`: returns `some v` exactly when the whole run is a valid
decimal floating literal — optional sign, digits with an optional
fractional part (at least one digit overall), and an optional exponent
`e|E [sign] digits+`.  The run only ever contains characters from
`is_part_of_number`, so the hex/inf/nan forms of `strtod` are
unreachable and not modelled; the ERANGE overflow check is not
modelled (values are exact rationals). -/
def strtodFull (cs : List Char) : Option ℚ :=
  let sgn : ℚ := match cs with
    | '-' :: _ => -1
    | _ => 1
  let cs1 : List Char := match cs with
    | '-' :: t => t
    | '+' :: t => t
    | _ => cs
  let ip := cs1.takeWhile Char.isDigit
  let cs2 := cs1.drop ip.length
  let fp : List Char := match cs2 with
    | '.' :: t => t.takeWhile Char.isDigit
    | _ => []
  let cs3 : List Char := match cs2 with
    | '.' :: t => t.drop (t.takeWhile Char.isDigit).length
    | _ => cs2
  if ip.length = 0 ∧ fp.length = 0 then none
  else
    let mant : ℚ := (digitsVal ip : ℚ) + (digitsVal fp : ℚ) / (10 : ℚ) ^ fp.length
    match cs3 with
    | [] => some (sgn * mant)
    | e :: t =>
      if e = 'e' ∨ e = 'E' then
        let epos : Bool := match t with
          | '-' :: _ => false
          | _ => true
        let t1 : List Char := match t with
          | '-' :: t' => t'
          | '+' :: t' => t'
          | _ => t
        let ed := t1.takeWhile Char.isDigit
        if ed.length = 0 then none
        else if t1.drop ed.length ≠ [] then none
        else some (sgn * mant * (if epos then (10 : ℚ) ^ digitsVal ed
                                 else ((10 : ℚ) ^ digitsVal ed)⁻¹))
      else none

/-- `parse_number` in main.c: greedily munch the maximal run of
`is_part_of_number` characters that are not whitespace, then validate
the whole run with `strtod`.  Returns the number token (span
`[start, start + len - 1]`, inclusive, as in `create_token(NUMBER, …)`),
the new cursor, and the remaining characters. -/
def parse_number (pos : Nat) (cs : List Char) :
    Except LexErr (Token × Nat × List Char) :=
  let run := cs.takeWhile (fun c => is_part_of_number c && !(isSpaceC c))
  if run.length = 0 then .error .invalidCharacter
  else match strtodFull run with
    | none => .error .invalidNumber
    | some v =>
      .ok (⟨.number, v, pos, pos + run.length - 1⟩, pos + run.length,
           cs.drop run.length)

/-- One operator token: `create_token(kind, value, cursor, cursor)`. -/
def opToken (k : TokenKind) (pos : Nat) : Token := ⟨k, 0, pos, pos⟩

/-- The scanning loop of `tokenize` in main.c.  `pos` is `lex->cursor`.
The `fuel` argument only bounds the recursion; `tokenize` supplies
more fuel than characters, and every step consumes at least one
character, so the `fuelExhausted` branch is unreachable from
`tokenize`. -/
def tokenizeAux : Nat → Nat → List Char → Except LexErr (List Token)
  | 0, _, _ => .error .fuelExhausted
  | _ + 1, pos, [] => .ok [⟨.eof, 0, pos, pos⟩]
  | fuel + 1, pos, c :: rest =>
    if isSpaceC c then tokenizeAux fuel (pos + 1) rest
    else if c = '-' then
      -- `-` immediately followed by a digit starts a number run
      match rest with
      | d :: _ =>
        if d.isDigit then
          match parse_number pos (c :: rest) with
          | .error e => .error e
          | .ok (tok, pos', rest') =>
            (tokenizeAux fuel pos' rest').map (tok :: ·)
        else (tokenizeAux fuel (pos + 1) rest).map (opToken .minus pos :: ·)
      | [] => (tokenizeAux fuel (pos + 1) rest).map (opToken .minus pos :: ·)
    else if c = '+' then (tokenizeAux fuel (pos + 1) rest).map (opToken .plus pos :: ·)
    else if c = '*' then (tokenizeAux fuel (pos + 1) rest).map (opToken .star pos :: ·)
    else if c = '/' then (tokenizeAux fuel (pos + 1) rest).map (opToken .slash pos :: ·)
    else if c = '%' then (tokenizeAux fuel (pos + 1) rest).map (opToken .percent pos :: ·)
    else if c = '^' then (tokenizeAux fuel (pos + 1) rest).map (opToken .caret pos :: ·)
    else if c = '(' then (tokenizeAux fuel (pos + 1) rest).map (opToken .lparen pos :: ·)
    else if c = ')' then (tokenizeAux fuel (pos + 1) rest).map (opToken .rparen pos :: ·)
    else if c.isDigit then
      match parse_number pos (c :: rest) with
      | .error e => .error e
      | .ok (tok, pos', rest') => (tokenizeAux fuel pos' rest').map (tok :: ·)
    else .error .unknownChar

/-- `tokenize` in main.c applied to a whole source string: scan from
cursor 0 and terminate the stream with the EndOfFile sentinel. -/
def tokenize (s : String) : Except LexErr (List Token) :=
  tokenizeAux (s.length + 1) 0 s.toList

/-- `struct ast_node` in main.c: a tagged tree over {number, unary,
binary}.  The operator of a unary/binary node is stored as a
`TokenKind`, exactly as the C union stores `enum token_kind op`; the
two trailing `Nat`s of each constructor are the `start`/`end` source
span fields. -/
inductive Ast where
  | num (v : ℚ) (start stop : Nat)
  | unary (op : TokenKind) (child : Ast) (start stop : Nat)
  | binary (op : TokenKind) (left right : Ast) (start stop : Nat)
deriving DecidableEq

/-- The `start` field of a node. -/
def Ast.startPos : Ast → Nat
  | .num _ s _ => s
  | .unary _ _ s _ => s
  | .binary _ _ _ s _ => s

/-- The `end` field of a node. -/
def Ast.stopPos : Ast → Nat
  | .num _ _ e => e
  | .unary _ _ _ e => e
  | .binary _ _ _ _ e => e

/-- Parser failure modes, one per `exit(EXIT_FAILURE)` site reachable
from `parse` in main.c:
`unexpectedEof` = the `"EOF"` exit in `get_next_token`;
`expectedRhs` = the `"Expected right hand side"` exits in
`parse_expression`'s loop and in `parse_prefix`'s unary cases;
`expectedExpression` = the `"Expected expression"` exit in
`parse_prefix`'s parenthesis case;
`expectedCloseParen` = the `"Expected ')' at position"` exit;
`invalidPrefixTok` = the `"Invalid prefix token"` exit;
`fuelExhausted` is a modelling artifact of the fuel-based recursion,
unreachable with the fuel supplied by `parse`.
(The `"Expected left hand side"` exit in `parse_expression` is dead
code — `parse_prefix` never returns NULL — and has no counterpart.) -/
inductive ParseErr where
  | unexpectedEof | expectedRhs | expectedExpression
  | expectedCloseParen | invalidPrefixTok | fuelExhausted
deriving DecidableEq

/-- `get_left_binding_power` in main.c. -/
def get_left_binding_power : TokenKind → Nat
  | .plus => 1
  | .minus => 1
  | .star => 2
  | .slash => 2
  | .percent => 2
  | .caret => 4
  | _ => 0

/-- `get_right_binding_power` in main.c. -/
def get_right_binding_power : TokenKind → Nat
  | .plus => 1
  | .minus => 1
  | .star => 2
  | .slash => 2
  | .percent => 2
  | .caret => 3
  | _ => 0

mutual

/-- `parse_expression` in main.c.  The token cursor of `struct parser`
is modelled by passing the remaining token list; a successful result is
the parsed node (or `none` when the current token was already
EndOfFile, the C `return NULL`) together with the not-yet-consumed
tokens.  An empty token list is treated like the EndOfFile sentinel
that in C is always present. -/
def parse_expression : Nat → Nat → List Token → Except ParseErr (Option Ast × List Token)
  | 0, _, _ => .error .fuelExhausted
  | _ + 1, _, [] => .ok (none, [])
  | fuel + 1, bp, tok :: rest =>
    if tok.kind = .eof then .ok (none, tok :: rest)
    else
      -- tok = get_next_token(parser); lhs = parse_prefix(parser, &tok)
      match parseHead fuel tok rest with
      | .error e => .error e
      | .ok (lhs, rest2) =>
        match parseLoop fuel bp lhs rest2 with
        | .error e => .error e
        | .ok (node, rest3) => .ok (some node, rest3)

/-- `parse_prefix` in main.c.  `tok` is the token just consumed;
`toks` the tokens after it. -/
def parseHead : Nat → Token → List Token → Except ParseErr (Ast × List Token)
  | 0, _, _ => .error .fuelExhausted
  | fuel + 1, tok, toks =>
    if tok.kind = .number then
      .ok (.num tok.value tok.start tok.stop, toks)
    else if tok.kind = .minus ∨ tok.kind = .plus then
      -- UNARY_DEFAULT = 10
      match parse_expression fuel 10 toks with
      | .error e => .error e
      | .ok (none, _) => .error .expectedRhs
      | .ok (some rhs, rest) =>
        .ok (.unary tok.kind rhs tok.start tok.stop, rest)
    else if tok.kind = .lparen then
      match parse_expression fuel 0 toks with
      | .error e => .error e
      | .ok (none, _) => .error .expectedExpression
      | .ok (some inner, rest) =>
        -- tok = get_next_token(parser); require RPAREN
        match rest with
        | [] => .error .unexpectedEof
        | t :: rest2 =>
          if t.kind = .eof then .error .unexpectedEof
          else if t.kind = .rparen then .ok (inner, rest2)
          else .error .expectedCloseParen
    else .error .invalidPrefixTok

/-- The infix loop of `parse_expression` in main.c: while the next
token is not EndOfFile and its left binding power strictly exceeds
`bp`, consume it, parse the right-hand side with its right binding
power, and fold into a binary node spanning `lhs->start … rhs->end`. -/
def parseLoop : Nat → Nat → Ast → List Token → Except ParseErr (Ast × List Token)
  | 0, _, _, _ => .error .fuelExhausted
  | _ + 1, _, lhs, [] => .ok (lhs, [])
  | fuel + 1, bp, lhs, next :: rest =>
    if next.kind = .eof then .ok (lhs, next :: rest)
    else if get_left_binding_power next.kind ≤ bp then .ok (lhs, next :: rest)
    else
      match parse_expression fuel (get_right_binding_power next.kind) rest with
      | .error e => .error e
      | .ok (none, _) => .error .expectedRhs
      | .ok (some rhs, rest2) =>
        parseLoop fuel bp
          (.binary next.kind lhs rhs lhs.startPos rhs.stopPos) rest2

end

/-- `parse` in main.c: run `parse_expression(&parser, 0)` over the full
token list and keep the resulting root (the remaining tokens are
dropped without inspection). -/
def parse (toks : List Token) : Except ParseErr (Option Ast) :=
  (parse_expression (4 * toks.length + 8) 0 toks).map Prod.fst

/-- Arithmetic failure modes of `eval_ast`: the two
`"Division by zero"` exits, and the `"Unknown unary/binary operator"`
exits for malformed operator kinds. -/
inductive ArithErr where
  | divisionByZero | unknownUnaryOp | unknownBinaryOp
deriving DecidableEq

/-- The primitive double operations used by `eval_ast` and `run_vm`:
`+ - * /`, `fmod`, `pow` and unary negation, kept abstract (see the
module comment). -/
structure FOps where
  add : ℚ → ℚ → ℚ
  sub : ℚ → ℚ → ℚ
  mul : ℚ → ℚ → ℚ
  div : ℚ → ℚ → ℚ
  fmodOp : ℚ → ℚ → ℚ
  powOp : ℚ → ℚ → ℚ
  neg : ℚ → ℚ

/-- The `switch (root->data.binary.op)` of `eval_ast`'s binary case in
main.c, applied to the two already-evaluated operands: `/` and `%`
abort with division-by-zero exactly when the right operand equals 0;
an operator kind outside the six is the `"Unknown binary operator"`
exit. -/
def binOpEval (F : FOps) (op : TokenKind) (a b : ℚ) : Except ArithErr ℚ :=
  match op with
  | .plus => .ok (F.add a b)
  | .minus => .ok (F.sub a b)
  | .slash => if b = 0 then .error .divisionByZero else .ok (F.div a b)
  | .star => .ok (F.mul a b)
  | .caret => .ok (F.powOp a b)
  | .percent => if b = 0 then .error .divisionByZero else .ok (F.fmodOp a b)
  | _ => .error .unknownBinaryOp

/-- `eval_ast` in main.c: recursive tree walk.  For a binary node both
operands are fully evaluated (left first) before the operator is
examined (`binOpEval`). -/
def eval_ast (F : FOps) : Ast → Except ArithErr ℚ
  | .num v _ _ => .ok v
  | .unary op c _ _ =>
    match op with
    | .minus =>
      match eval_ast F c with
      | .error e => .error e
      | .ok a => .ok (F.neg a)
    | .plus => eval_ast F c
    | _ => .error .unknownUnaryOp
  | .binary op l r _ _ =>
    match eval_ast F l with
    | .error e => .error e
    | .ok a =>
      match eval_ast F r with
      | .error e => .error e
      | .ok b => binOpEval F op a b

/-- `enum opcode` in main.c (note `OP_PLUS`, which no VM case handles). -/
inductive Opcode where
  | constant | add | sub | mul | div | mod | power | negate | plusOp | halt
deriving DecidableEq

/-- `struct bytecode`: an opcode plus its constant-pool index (only
meaningful for `constant`; the compiler passes 0 elsewhere). -/
structure Bytecode where
  code : Opcode
  constIndex : Nat
deriving DecidableEq

/-- `struct chunk`: instruction list plus constant pool (the capacity
bookkeeping of the C growable arrays has no semantic content and is
not modelled). -/
structure Chunk where
  code : List Bytecode
  consts : List ℚ
deriving DecidableEq

/-- The empty chunk produced by `init_chunks`. -/
def emptyChunk : Chunk := ⟨[], []⟩

/-- `get_opcode_from_token_kind` in main.c — note that the default
branch returns `OP_HALT`. -/
def opcodeOfKind : TokenKind → Opcode
  | .number => .constant
  | .plus => .add
  | .minus => .sub
  | .star => .mul
  | .slash => .div
  | .percent => .mod
  | .caret => .power
  | _ => .halt

/-- `add_constant` in main.c: append to the pool, return the index the
value was stored at (the pool size before the append). -/
def add_constant (ch : Chunk) (v : ℚ) : Nat × Chunk :=
  (ch.consts.length, { ch with consts := ch.consts ++ [v] })

/-- `emit_bytecode` in main.c: append one instruction. -/
def emit_bytecode (ch : Chunk) (c : Opcode) (i : Nat) : Chunk :=
  { ch with code := ch.code ++ [⟨c, i⟩] }

/-- Compiler failure mode: the `"No such unary operator"` exit in
`compile_ast_to_bytecode`.  (A malformed *binary* operator is not an
error there: `get_opcode_from_token_kind` silently yields `OP_HALT`.) -/
inductive CompileErr where
  | unknownUnaryOp
deriving DecidableEq

/-- `compile_ast_to_bytecode` in main.c: post-order traversal appending
to the chunk.  Number → pool constant + `CONSTANT(i)`; unary minus →
child then `NEGATE`; unary plus → child only; binary → left, right,
operator opcode.  (The C NULL-node guard has no counterpart: `Ast` has
no null.) -/
def compile_ast_to_bytecode (ch : Chunk) : Ast → Except CompileErr Chunk
  | .num v _ _ =>
    let (i, ch2) := add_constant ch v
    .ok (emit_bytecode ch2 .constant i)
  | .unary op c _ _ =>
    match compile_ast_to_bytecode ch c with
    | .error e => .error e
    | .ok ch2 =>
      match op with
      | .minus => .ok (emit_bytecode ch2 .negate 0)
      | .plus => .ok ch2
      | _ => .error .unknownUnaryOp
  | .binary op l r _ _ =>
    match compile_ast_to_bytecode ch l with
    | .error e => .error e
    | .ok ch2 =>
      match compile_ast_to_bytecode ch2 r with
      | .error e => .error e
      | .ok ch3 => .ok (emit_bytecode ch3 (opcodeOfKind op) 0)

/-- The compile step of `process_expression` in main.c: start from the
chunk made by `init_chunks`, compile the root, then the caller itself
appends the single final `HALT`. -/
def compileTop (t : Ast) : Except CompileErr Chunk :=
  match compile_ast_to_bytecode emptyChunk t with
  | .error e => .error e
  | .ok ch => .ok (emit_bytecode ch .halt 0)

/-- VM failure modes: `stackOverflow`/`stackUnderflow` are the exits in
`push`/`pop`; `divisionByZero` the two zero checks in `run_vm`;
`unknownOpcode` the default case of the dispatch (reachable e.g. for
`OP_PLUS`); `badConstIndex` and `ranOffCode` stand for the
out-of-bounds reads the C code would perform on a malformed chunk
(constant index past the pool / instruction pointer past the code). -/
inductive VmErr where
  | stackOverflow | stackUnderflow | divisionByZero
  | unknownOpcode | badConstIndex | ranOffCode
deriving DecidableEq

/-- MAX_STACK_SIZE in main.c. -/
def MAX_STACK_SIZE : Nat := 255

/-- `push` in main.c: fails when the stack already holds
`MAX_STACK_SIZE` (= 255) values. -/
def push (stk : List ℚ) (v : ℚ) : Except VmErr (List ℚ) :=
  if MAX_STACK_SIZE ≤ stk.length then .error .stackOverflow else .ok (v :: stk)

/-- `pop` in main.c: fails on an empty stack. -/
def pop (stk : List ℚ) : Except VmErr (ℚ × List ℚ) :=
  match stk with
  | [] => .error .stackUnderflow
  | a :: s => .ok (a, s)

/-- `run_vm` in main.c: fetch–decode–execute over the instruction
list (the instruction pointer only ever advances by one, so the
remaining instruction list is the whole machine state besides the
stack).  Binary opcodes pop the right operand first, then the left;
`DIVIDE`/`MODULO` check the popped right operand against 0 before
pushing; `HALT` pops and returns. -/
def run_vm (F : FOps) (consts : List ℚ) : List Bytecode → List ℚ → Except VmErr ℚ
  | [], _ => .error .ranOffCode
  | instr :: rest, stk =>
    match instr.code with
    | .constant =>
      match consts.get? instr.constIndex with
      | none => .error .badConstIndex
      | some v =>
        match push stk v with
        | .error e => .error e
        | .ok stk' => run_vm F consts rest stk'
    | .negate =>
      match pop stk with
      | .error e => .error e
      | .ok (a, s) =>
        match push s (F.neg a) with
        | .error e => .error e
        | .ok stk' => run_vm F consts rest stk'
    | .add =>
      match pop stk with
      | .error e => .error e
      | .ok (b, s1) =>
        match pop s1 with
        | .error e => .error e
        | .ok (a, s2) =>
          match push s2 (F.add a b) with
          | .error e => .error e
          | .ok stk' => run_vm F consts rest stk'
    | .sub =>
      match pop stk with
      | .error e => .error e
      | .ok (b, s1) =>
        match pop s1 with
        | .error e => .error e
        | .ok (a, s2) =>
          match push s2 (F.sub a b) with
          | .error e => .error e
          | .ok stk' => run_vm F consts rest stk'
    | .mul =>
      match pop stk with
      | .error e => .error e
      | .ok (b, s1) =>
        match pop s1 with
        | .error e => .error e
        | .ok (a, s2) =>
          match push s2 (F.mul a b) with
          | .error e => .error e
          | .ok stk' => run_vm F consts rest stk'
    | .div =>
      match pop stk with
      | .error e => .error e
      | .ok (b, s1) =>
        match pop s1 with
        | .error e => .error e
        | .ok (a, s2) =>
          if b = 0 then .error .divisionByZero
          else
            match push s2 (F.div a b) with
            | .error e => .error e
            | .ok stk' => run_vm F consts rest stk'
    | .mod =>
      match pop stk with
      | .error e => .error e
      | .ok (b, s1) =>
        match pop s1 with
        | .error e => .error e
        | .ok (a, s2) =>
          if b = 0 then .error .divisionByZero
          else
            match push s2 (F.fmodOp a b) with
            | .error e => .error e
            | .ok stk' => run_vm F consts rest stk'
    | .power =>
      match pop stk with
      | .error e => .error e
      | .ok (b, s1) =>
        match pop s1 with
        | .error e => .error e
        | .ok (a, s2) =>
          match push s2 (F.powOp a b) with
          | .error e => .error e
          | .ok stk' => run_vm F consts rest stk'
    | .halt =>
      match pop stk with
      | .error e => .error e
      | .ok (a, _) => .ok a
    | .plusOp => .error .unknownOpcode

/-- `run_vm` started as in `process_expression`: instruction pointer 0
and empty stack. -/
def runVmChunk (F : FOps) (ch : Chunk) : Except VmErr ℚ :=
  run_vm F ch.consts ch.code []

/-- A failure anywhere in the pipeline, tagged by the stage. -/
inductive PipeErr where
  | lexE (e : LexErr)
  | synE (e : ParseErr)
  | arithE (e : ArithErr)
  | compE (e : CompileErr)
  | vmE (e : VmErr)
deriving DecidableEq

/-- tokenize + parse: the front end shared by both back ends.
`.ok none` is the "empty expression" case of `process_expression`. -/
def astOf (s : String) : Except PipeErr (Option Ast) :=
  match tokenize s with
  | .error e => .error (.lexE e)
  | .ok toks =>
    match parse toks with
    | .error e => .error (.synE e)
    | .ok t => .ok t

/-- The tree-walking path of `process_expression`:
`eval_ast(parse(tokenize(source)))`. -/
def evalPipeline (F : FOps) (s : String) : Except PipeErr (Option ℚ) :=
  match astOf s with
  | .error e => .error e
  | .ok none => .ok none
  | .ok (some t) =>
    match eval_ast F t with
    | .error e => .error (.arithE e)
    | .ok v => .ok (some v)

/-- Compile + run on one AST (the back half of the VM path). -/
def vmOnAst (F : FOps) (t : Ast) : Except PipeErr ℚ :=
  match compileTop t with
  | .error e => .error (.compE e)
  | .ok ch =>
    match runVmChunk F ch with
    | .error e => .error (.vmE e)
    | .ok v => .ok v

/-- The VM path of `process_expression`:
`run_vm(compile(parse(tokenize(source))) + HALT)`. -/
def vmPipeline (F : FOps) (s : String) : Except PipeErr (Option ℚ) :=
  match astOf s with
  | .error e => .error e
  | .ok none => .ok none
  | .ok (some t) =>
    match vmOnAst F t with
    | .error e => .error e
    | .ok v => .ok (some v)

/-- Truncation toward zero, as C's `trunc`. -/
def ratTrunc (q : ℚ) : ℤ := if 0 ≤ q then ⌊q⌋ else ⌈q⌉

/-- Exact model of C `fmod`: `fmod(x, y) = x - trunc(x / y) * y`
(sign follows the dividend).  Only ever invoked with `y ≠ 0`. -/
def ratFmod (x y : ℚ) : ℚ := x - y * (ratTrunc (x / y) : ℚ)

/-- Exact model of C `pow` on the arguments that occur in the claims:
for an integer exponent it is iterated exact multiplication (which the
IEEE `pow` reproduces exactly whenever the result is representable);
for a non-integer exponent — never exercised by any claim — the real
`pow` has no rational value and 0 is returned as a placeholder. -/
def ratPow (x y : ℚ) : ℚ :=
  if y.den = 1 then
    if 0 ≤ y.num then x ^ y.num.toNat else (x ^ (-y.num).toNat)⁻¹
  else 0

/-- Exact rational instantiation of the primitive operations. -/
def ratOps : FOps :=
  { add := (· + ·), sub := (· - ·), mul := (· * ·), div := (· / ·)
    fmodOp := ratFmod, powOp := ratPow, neg := (- ·) }

/-- Maximal number of simultaneously pending operand-stack slots the
compiled code of a node needs: a constant occupies one slot; negation
works in place; a binary node needs the larger of its left operand's
demand and (left result held) one more than its right operand's
demand. -/
def maxPending : Ast → Nat
  | .num _ _ _ => 1
  | .unary _ c _ _ => maxPending c
  | .binary _ l r _ _ => max (maxPending l) (maxPending r + 1)

/-- Well-formedness of the operator kinds stored in a tree: unary ops
are `+`/`-`, binary ops one of the six operators.  Every tree the
parser builds satisfies this. -/
def wfAstB : Ast → Bool
  | .num _ _ _ => true
  | .unary op c _ _ => (op = .minus || op = .plus) && wfAstB c
  | .binary op l r _ _ =>
    (op = .plus || op = .minus || op = .star || op = .slash ||
     op = .percent || op = .caret) && wfAstB l && wfAstB r

/-- Span structure of a tree as the parser actually builds it: a
binary node spans from its left child's start to its right child's
end, and a unary node carries the single-position span of its operator
token (`start = end`). -/
def spanOkB : Ast → Bool
  | .num _ _ _ => true
  | .unary _ c s e => (s = e) && spanOkB c
  | .binary _ l r s e =>
    (s = l.startPos) && (e = r.stopPos) && spanOkB l && spanOkB r

/-- The source string `1^1^…^1` with `n` carets. -/
def deepChars : Nat → List Char
  | 0 => ['1']
  | n + 1 => '1' :: '^' :: deepChars n

/-- The token stream of `deepChars n` starting at offset `pos`. -/
def deepToks : Nat → Nat → List Token
  | 0, pos => [⟨.number, 1, pos, pos⟩, ⟨.eof, 0, pos + 1, pos + 1⟩]
  | n + 1, pos =>
    ⟨.number, 1, pos, pos⟩ :: ⟨.caret, 0, pos + 1, pos + 1⟩ :: deepToks n (pos + 2)

/-- The AST of `deepChars n` starting at offset `pos`: a right-nested
power chain of `n + 1` constants, whose compiled code needs `n + 1`
simultaneous stack slots. -/
def deepAst : Nat → Nat → Ast
  | 0, pos => .num 1 pos pos
  | n + 1, pos =>
    .binary .caret (.num 1 pos pos) (deepAst n (pos + 2)) pos (pos + 2 * n + 2)

/-! ### Helper lemmas -/

theorem getq_append_mid (a : List ℚ) (v : ℚ) (b : List ℚ) :
    (a ++ v :: b).get? a.length = some v := by
  induction a with
  | nil => rfl
  | cons x xs ih => simpa using ih

theorem maxPending_pos : ∀ t : Ast, 1 ≤ maxPending t
  | .num _ _ _ => le_refl 1
  | .unary _ c _ _ => maxPending_pos c
  | .binary _ l _ _ _ => le_trans (maxPending_pos l) (le_max_left _ _)

/-- On a well-formed tree the compiler succeeds, and none of the
instructions it appends is `HALT`. -/
theorem compile_wf : ∀ (t : Ast), wfAstB t = true → ∀ ch : Chunk,
    ∃ dc dk, compile_ast_to_bytecode ch t = .ok ⟨ch.code ++ dc, ch.consts ++ dk⟩ ∧
      ∀ b ∈ dc, Bytecode.code b ≠ .halt := by
  intro t
  induction t with
  | num v s e =>
    intro _ ch
    exact ⟨[⟨.constant, ch.consts.length⟩], [v], rfl, by simp⟩
  | unary op c s e ih =>
    intro hwf ch
    simp only [wfAstB, Bool.and_eq_true, Bool.or_eq_true, decide_eq_true_eq] at hwf
    obtain ⟨dc, dk, hc, hhalt⟩ := ih hwf.2 ch
    rcases hwf.1 with h1 | h1 <;> subst h1
    · refine ⟨dc ++ [⟨.negate, 0⟩], dk,
        by simp [compile_ast_to_bytecode, hc, emit_bytecode], ?_⟩
      intro b hb
      rcases List.mem_append.1 hb with h | h
      · exact hhalt b h
      · simp only [List.mem_singleton] at h; subst h; simp
    · exact ⟨dc, dk, by simp [compile_ast_to_bytecode, hc], hhalt⟩
  | binary op l r s e ihl ihr =>
    intro hwf ch
    simp only [wfAstB, Bool.and_eq_true, Bool.or_eq_true, decide_eq_true_eq] at hwf
    obtain ⟨dcl, dkl, hl, hhl⟩ := ihl hwf.1.2 ch
    obtain ⟨dcr, dkr, hr, hhr⟩ := ihr hwf.2 ⟨ch.code ++ dcl, ch.consts ++ dkl⟩
    have hop : opcodeOfKind op ≠ .halt := by
      rcases hwf.1.1 with ⟨⟨⟨⟨h | h⟩ | h⟩ | h⟩ | h⟩ | h <;> subst h <;> simp [opcodeOfKind]
    refine ⟨dcl ++ (dcr ++ [⟨opcodeOfKind op, 0⟩]), dkl ++ dkr,
      by simp [compile_ast_to_bytecode, hl, hr, emit_bytecode], ?_⟩
    intro b hb
    rcases List.mem_append.1 hb with h | h
    · exact hhl b h
    · rcases List.mem_append.1 h with h | h
      · exact hhr b h
      · simp only [List.mem_singleton] at h; subst h; exact hop

/-- A tree on which `eval_ast` succeeds is well-formed: the evaluator
aborts on any unknown operator kind it meets, and it meets them all. -/
theorem eval_ok_wf (F : FOps) : ∀ t : Ast, ∀ v, eval_ast F t = .ok v →
    wfAstB t = true := by
  intro t
  induction t with
  | num v s e => intro _ _; rfl
  | unary op c s e ih =>
    intro v h
    cases op <;> simp only [eval_ast] at h
    case plus => simp [wfAstB, ih v h]
    case minus =>
      cases hc : eval_ast F c with
      | error e1 => simp [hc] at h
      | ok a => simp [wfAstB, ih a hc]
    all_goals exact absurd h (by simp)
  | binary op l r s e ihl ihr =>
    intro v h
    cases hl : eval_ast F l with
    | error e1 => simp [eval_ast, hl] at h
    | ok a =>
      cases hr : eval_ast F r with
      | error e1 => simp [eval_ast, hl, hr] at h
      | ok b =>
        simp only [eval_ast, hl, hr] at h
        have hwl := ihl a hl
        have hwr := ihr b hr
        cases op <;> simp_all [wfAstB, binOpEval]

/-! ### Single-instruction unfoldings of the VM loop -/

theorem vmStep_const (F : FOps) (consts : List ℚ) (i : Nat) (rest : List Bytecode)
    (stk : List ℚ) (v : ℚ) (hv : consts.get? i = some v) :
    run_vm F consts (⟨.constant, i⟩ :: rest) stk =
      if MAX_STACK_SIZE ≤ stk.length then .error .stackOverflow
      else run_vm F consts rest (v :: stk) := by
  by_cases hc : MAX_STACK_SIZE ≤ stk.length <;>
    simp [run_vm, push, hc, ← List.get?_eq_getElem?, hv]

theorem vmStep_negate (F : FOps) (consts : List ℚ) (i : Nat) (rest : List Bytecode)
    (a : ℚ) (stk : List ℚ) :
    run_vm F consts (⟨.negate, i⟩ :: rest) (a :: stk) =
      if MAX_STACK_SIZE ≤ stk.length then .error .stackOverflow
      else run_vm F consts rest (F.neg a :: stk) := by
  by_cases hc : MAX_STACK_SIZE ≤ stk.length <;> simp [run_vm, pop, push, hc]

theorem vmStep_add (F : FOps) (consts : List ℚ) (i : Nat) (rest : List Bytecode)
    (a b : ℚ) (stk : List ℚ) :
    run_vm F consts (⟨.add, i⟩ :: rest) (b :: a :: stk) =
      if MAX_STACK_SIZE ≤ stk.length then .error .stackOverflow
      else run_vm F consts rest (F.add a b :: stk) := by
  by_cases hc : MAX_STACK_SIZE ≤ stk.length <;> simp [run_vm, pop, push, hc]

theorem vmStep_sub (F : FOps) (consts : List ℚ) (i : Nat) (rest : List Bytecode)
    (a b : ℚ) (stk : List ℚ) :
    run_vm F consts (⟨.sub, i⟩ :: rest) (b :: a :: stk) =
      if MAX_STACK_SIZE ≤ stk.length then .error .stackOverflow
      else run_vm F consts rest (F.sub a b :: stk) := by
  by_cases hc : MAX_STACK_SIZE ≤ stk.length <;> simp [run_vm, pop, push, hc]

theorem vmStep_mul (F : FOps) (consts : List ℚ) (i : Nat) (rest : List Bytecode)
    (a b : ℚ) (stk : List ℚ) :
    run_vm F consts (⟨.mul, i⟩ :: rest) (b :: a :: stk) =
      if MAX_STACK_SIZE ≤ stk.length then .error .stackOverflow
      else run_vm F consts rest (F.mul a b :: stk) := by
  by_cases hc : MAX_STACK_SIZE ≤ stk.length <;> simp [run_vm, pop, push, hc]

theorem vmStep_power (F : FOps) (consts : List ℚ) (i : Nat) (rest : List Bytecode)
    (a b : ℚ) (stk : List ℚ) :
    run_vm F consts (⟨.power, i⟩ :: rest) (b :: a :: stk) =
      if MAX_STACK_SIZE ≤ stk.length then .error .stackOverflow
      else run_vm F consts rest (F.powOp a b :: stk) := by
  by_cases hc : MAX_STACK_SIZE ≤ stk.length <;> simp [run_vm, pop, push, hc]

theorem vmStep_div (F : FOps) (consts : List ℚ) (i : Nat) (rest : List Bytecode)
    (a b : ℚ) (stk : List ℚ) :
    run_vm F consts (⟨.div, i⟩ :: rest) (b :: a :: stk) =
      if b = 0 then .error .divisionByZero
      else if MAX_STACK_SIZE ≤ stk.length then .error .stackOverflow
      else run_vm F consts rest (F.div a b :: stk) := by
  by_cases hb : b = 0 <;> by_cases hc : MAX_STACK_SIZE ≤ stk.length <;>
    simp [run_vm, pop, push, hb, hc]

theorem vmStep_mod (F : FOps) (consts : List ℚ) (i : Nat) (rest : List Bytecode)
    (a b : ℚ) (stk : List ℚ) :
    run_vm F consts (⟨.mod, i⟩ :: rest) (b :: a :: stk) =
      if b = 0 then .error .divisionByZero
      else if MAX_STACK_SIZE ≤ stk.length then .error .stackOverflow
      else run_vm F consts rest (F.fmodOp a b :: stk) := by
  by_cases hb : b = 0 <;> by_cases hc : MAX_STACK_SIZE ≤ stk.length <;>
    simp [run_vm, pop, push, hb, hc]

theorem vmStep_halt (F : FOps) (consts : List ℚ) (i : Nat) (rest : List Bytecode)
    (a : ℚ) (stk : List ℚ) :
    run_vm F consts (⟨.halt, i⟩ :: rest) (a :: stk) = .ok a := rfl

/-! ### Correctness of the compiled code against the evaluator -/

/-- Uniform VM execution of the opcode compiled for a well-formed
binary operator, phrased through `binOpEval`: with both operands on
the stack, the instruction either reproduces the evaluator's value
(overflowing when no slot is free for the result) or aborts with
division-by-zero exactly when the evaluator does. -/
theorem vmStep_binop (F : FOps) (consts : List ℚ) (rest : List Bytecode)
    (a b : ℚ) (stk : List ℚ) (op : TokenKind)
    (hop : (op = .plus || op = .minus || op = .star || op = .slash ||
            op = .percent || op = .caret) = true) :
    run_vm F consts (⟨opcodeOfKind op, 0⟩ :: rest) (b :: a :: stk) =
      match binOpEval F op a b with
      | .ok v =>
        if MAX_STACK_SIZE ≤ stk.length then .error .stackOverflow
        else run_vm F consts rest (v :: stk)
      | .error _ => .error .divisionByZero := by
  simp only [Bool.or_eq_true, decide_eq_true_eq] at hop
  rcases hop with ⟨⟨⟨⟨hk | hk⟩ | hk⟩ | hk⟩ | hk⟩ | hk <;> subst hk <;>
    simp only [opcodeOfKind, binOpEval]
  · rw [vmStep_add]
  · rw [vmStep_sub]
  · rw [vmStep_mul]
  · rw [vmStep_div]; by_cases hb : b = 0 <;> simp [hb]
  · rw [vmStep_mod]; by_cases hb : b = 0 <;> simp [hb]
  · rw [vmStep_power]

/-- Central lemma: executing the instructions the compiler appended
for a well-formed tree `t` — with any continuation `rest` and any
starting stack that leaves room for `maxPending t` further slots —
behaves exactly like the evaluator: it pushes the evaluator's value
and continues, or aborts with division-by-zero exactly when the
evaluator does.  The constant pool may extend past the compiled
chunk's pool (`ext`), since the code only references the indices it
was compiled against. -/
theorem runCompiled (F : FOps) : ∀ t : Ast, wfAstB t = true →
    ∀ (ch : Chunk) (dc : List Bytecode) (dk ext : List ℚ)
      (rest : List Bytecode) (stk : List ℚ),
    compile_ast_to_bytecode ch t = .ok ⟨ch.code ++ dc, ch.consts ++ dk⟩ →
    stk.length + maxPending t ≤ MAX_STACK_SIZE →
    (∀ v, eval_ast F t = .ok v →
      run_vm F (ch.consts ++ (dk ++ ext)) (dc ++ rest) stk =
        run_vm F (ch.consts ++ (dk ++ ext)) rest (v :: stk)) ∧
    (∀ e, eval_ast F t = .error e →
      run_vm F (ch.consts ++ (dk ++ ext)) (dc ++ rest) stk =
        .error .divisionByZero) := by
  intro t
  induction t with
  | num v s e =>
    intro _ ch dc dk ext rest stk h hroom
    simp only [compile_ast_to_bytecode, add_constant, emit_bytecode, Except.ok.injEq, Chunk.mk.injEq] at h
    obtain ⟨h1, h2⟩ := h
    replace h1 := List.append_cancel_left h1
    replace h2 := List.append_cancel_left h2
    subst h1; subst h2
    refine ⟨?_, ?_⟩
    · intro w hw
      simp only [eval_ast, Except.ok.injEq] at hw
      subst hw
      have hget : (ch.consts ++ v :: ext).get? ch.consts.length = some v :=
        getq_append_mid ch.consts v ext
      simp only [List.singleton_append]
      rw [vmStep_const F _ _ _ _ _ hget,
        if_neg (show ¬ (MAX_STACK_SIZE ≤ stk.length) by
          simp only [maxPending] at hroom; omega)]
    · intro e1 he1
      simp [eval_ast] at he1
  | unary op c s e ih =>
    intro hwf ch dc dk ext rest stk h hroom
    simp only [wfAstB, Bool.and_eq_true, Bool.or_eq_true, decide_eq_true_eq] at hwf
    obtain ⟨dcc, dkc, hc, _⟩ := compile_wf c hwf.2 ch
    rcases hwf.1 with h1 | h1 <;> subst h1
    · -- unary minus: child code then NEGATE
      simp only [compile_ast_to_bytecode, hc, emit_bytecode, Except.ok.injEq, Chunk.mk.injEq,
        List.append_assoc] at h
      obtain ⟨h1, h2⟩ := h
      replace h1 := List.append_cancel_left h1
      replace h2 := List.append_cancel_left h2
      subst h1; subst h2
      have IH := ih hwf.2 ch dcc dkc ext (⟨.negate, 0⟩ :: rest) stk hc
        (by simpa [maxPending] using hroom)
      refine ⟨?_, ?_⟩
      · intro w hw
        simp only [eval_ast] at hw
        cases hcv : eval_ast F c with
        | error e1 => simp [hcv] at hw
        | ok a =>
          rw [hcv] at hw
          simp only [Except.ok.injEq] at hw
          subst hw
          rw [List.append_assoc, List.singleton_append, IH.1 a hcv, vmStep_negate,
            if_neg (show ¬ (MAX_STACK_SIZE ≤ stk.length) by
              have := maxPending_pos c; simp only [maxPending] at hroom; omega)]
      · intro e1 he1
        simp only [eval_ast] at he1
        cases hcv : eval_ast F c with
        | error e2 => rw [List.append_assoc, List.singleton_append, IH.2 e2 hcv]
        | ok a => simp [hcv] at he1
    · -- unary plus: child code only, evaluator passes through
      simp only [compile_ast_to_bytecode, hc, Except.ok.injEq, Chunk.mk.injEq] at h
      obtain ⟨h1, h2⟩ := h
      replace h1 := List.append_cancel_left h1
      replace h2 := List.append_cancel_left h2
      subst h1; subst h2
      have IH := ih hwf.2 ch dcc dkc ext rest stk hc
        (by simpa [maxPending] using hroom)
      refine ⟨?_, ?_⟩
      · intro w hw
        simp only [eval_ast] at hw
        exact IH.1 w hw
      · intro e1 he1
        simp only [eval_ast] at he1
        exact IH.2 e1 he1
  | binary op l r s e ihl ihr =>
    intro hwf ch dc dk ext rest stk h hroom
    simp only [wfAstB, Bool.and_eq_true] at hwf
    obtain ⟨⟨hop, hwl⟩, hwr⟩ := hwf
    obtain ⟨dcl, dkl, hl, _⟩ := compile_wf l hwl ch
    obtain ⟨dcr, dkr, hr, _⟩ := compile_wf r hwr ⟨ch.code ++ dcl, ch.consts ++ dkl⟩
    simp only [compile_ast_to_bytecode, hl, hr, emit_bytecode, Except.ok.injEq, Chunk.mk.injEq,
      List.append_assoc] at h
    obtain ⟨h1, h2⟩ := h
    replace h1 := List.append_cancel_left h1
    replace h2 := List.append_cancel_left h2
    subst h1; subst h2
    have hmpl := maxPending_pos l
    have hmpr := maxPending_pos r
    have hrooml : stk.length + maxPending l ≤ MAX_STACK_SIZE := by
      simp only [maxPending] at hroom; omega
    have hpush : ¬ (MAX_STACK_SIZE ≤ stk.length) := by
      simp only [maxPending] at hroom; omega
    refine ⟨?_, ?_⟩
    · intro w hw
      cases hlv : eval_ast F l with
      | error e1 => simp [eval_ast, hlv] at hw
      | ok a =>
        cases hrv : eval_ast F r with
        | error e1 => simp [eval_ast, hlv, hrv] at hw
        | ok b =>
          simp only [eval_ast, hlv, hrv] at hw
          have hroomr : (a :: stk).length + maxPending r ≤ MAX_STACK_SIZE := by
            simp only [List.length_cons]
            simp only [maxPending] at hroom; omega
          have IHl := (ihl hwl ch dcl dkl (dkr ++ ext)
            (dcr ++ (⟨opcodeOfKind op, 0⟩ :: rest)) stk hl hrooml).1 a hlv
          have IHr := (ihr hwr ⟨ch.code ++ dcl, ch.consts ++ dkl⟩ dcr dkr ext
            (⟨opcodeOfKind op, 0⟩ :: rest) (a :: stk) hr hroomr).1 b hrv
          simp only [List.append_assoc, List.singleton_append, List.cons_append,
            List.nil_append] at IHl IHr ⊢
          rw [IHl, IHr, vmStep_binop F _ _ a b stk op hop, hw]
          simp [hpush]
    · intro e1 he1
      cases hlv : eval_ast F l with
      | error e2 =>
        have IHl := (ihl hwl ch dcl dkl (dkr ++ ext)
          (dcr ++ (⟨opcodeOfKind op, 0⟩ :: rest)) stk hl hrooml).2 e2 hlv
        simp only [List.append_assoc, List.singleton_append, List.cons_append,
          List.nil_append] at IHl ⊢
        exact IHl
      | ok a =>
        have hroomr : (a :: stk).length + maxPending r ≤ MAX_STACK_SIZE := by
          simp only [List.length_cons]
          simp only [maxPending] at hroom; omega
        have IHl := (ihl hwl ch dcl dkl (dkr ++ ext)
          (dcr ++ (⟨opcodeOfKind op, 0⟩ :: rest)) stk hl hrooml).1 a hlv
        cases hrv : eval_ast F r with
        | error e2 =>
          have IHr := (ihr hwr ⟨ch.code ++ dcl, ch.consts ++ dkl⟩ dcr dkr ext
            (⟨opcodeOfKind op, 0⟩ :: rest) (a :: stk) hr hroomr).2 e2 hrv
          simp only [List.append_assoc, List.singleton_append, List.cons_append,
            List.nil_append] at IHl IHr ⊢
          rw [IHl]
          exact IHr
        | ok b =>
          simp only [eval_ast, hlv, hrv] at he1
          have IHr := (ihr hwr ⟨ch.code ++ dcl, ch.consts ++ dkl⟩ dcr dkr ext
            (⟨opcodeOfKind op, 0⟩ :: rest) (a :: stk) hr hroomr).1 b hrv
          simp only [List.append_assoc, List.singleton_append, List.cons_append,
            List.nil_append] at IHl IHr ⊢
          rw [IHl, IHr, vmStep_binop F _ _ a b stk op hop, he1]

/-- Weak run lemma, with no room assumption: executing compiled code
either aborts with `stackOverflow`, or reproduces the evaluator — the
value pushed on success, `divisionByZero` on the evaluator's error.
In particular `stackUnderflow` can never arise from compiled code. -/
theorem runCompiledWeak (F : FOps) : ∀ t : Ast, wfAstB t = true →
    ∀ (ch : Chunk) (dc : List Bytecode) (dk ext : List ℚ)
      (rest : List Bytecode) (stk : List ℚ),
    compile_ast_to_bytecode ch t = .ok ⟨ch.code ++ dc, ch.consts ++ dk⟩ →
    run_vm F (ch.consts ++ (dk ++ ext)) (dc ++ rest) stk = .error .stackOverflow
    ∨ (∃ v, eval_ast F t = .ok v ∧
        run_vm F (ch.consts ++ (dk ++ ext)) (dc ++ rest) stk =
          run_vm F (ch.consts ++ (dk ++ ext)) rest (v :: stk))
    ∨ (∃ e, eval_ast F t = .error e ∧
        run_vm F (ch.consts ++ (dk ++ ext)) (dc ++ rest) stk =
          .error .divisionByZero) := by
  intro t
  induction t with
  | num v s e =>
    intro _ ch dc dk ext rest stk h
    simp only [compile_ast_to_bytecode, add_constant, emit_bytecode, Except.ok.injEq, Chunk.mk.injEq] at h
    obtain ⟨h1, h2⟩ := h
    replace h1 := List.append_cancel_left h1
    replace h2 := List.append_cancel_left h2
    subst h1; subst h2
    have hget : (ch.consts ++ v :: ext).get? ch.consts.length = some v :=
      getq_append_mid ch.consts v ext
    simp only [List.singleton_append]
    rw [vmStep_const F _ _ _ _ _ hget]
    by_cases hc : MAX_STACK_SIZE ≤ stk.length
    · exact Or.inl (by rw [if_pos hc])
    · exact Or.inr (Or.inl ⟨v, rfl, by rw [if_neg hc]⟩)
  | unary op c s e ih =>
    intro hwf ch dc dk ext rest stk h
    simp only [wfAstB, Bool.and_eq_true, Bool.or_eq_true, decide_eq_true_eq] at hwf
    obtain ⟨dcc, dkc, hc, _⟩ := compile_wf c hwf.2 ch
    rcases hwf.1 with h1 | h1 <;> subst h1
    · -- unary minus
      simp only [compile_ast_to_bytecode, hc, emit_bytecode, Except.ok.injEq, Chunk.mk.injEq,
        List.append_assoc] at h
      obtain ⟨h1, h2⟩ := h
      replace h1 := List.append_cancel_left h1
      replace h2 := List.append_cancel_left h2
      subst h1; subst h2
      have IH := ih hwf.2 ch dcc dkc ext (⟨.negate, 0⟩ :: rest) stk hc
      simp only [List.append_assoc, List.singleton_append] at IH ⊢
      rcases IH with hover | ⟨a, ha, hcont⟩ | ⟨e1, he1, herr⟩
      · exact Or.inl hover
      · rw [hcont, vmStep_negate]
        by_cases hpush : MAX_STACK_SIZE ≤ stk.length
        · exact Or.inl (by rw [if_pos hpush])
        · exact Or.inr (Or.inl ⟨F.neg a, by simp [eval_ast, ha], by rw [if_neg hpush]⟩)
      · exact Or.inr (Or.inr ⟨e1, by simp [eval_ast, he1], herr⟩)
    · -- unary plus
      simp only [compile_ast_to_bytecode, hc, Except.ok.injEq, Chunk.mk.injEq] at h
      obtain ⟨h1, h2⟩ := h
      replace h1 := List.append_cancel_left h1
      replace h2 := List.append_cancel_left h2
      subst h1; subst h2
      have IH := ih hwf.2 ch dcc dkc ext rest stk hc
      rcases IH with hover | ⟨a, ha, hcont⟩ | ⟨e1, he1, herr⟩
      · exact Or.inl hover
      · exact Or.inr (Or.inl ⟨a, by simp [eval_ast, ha], hcont⟩)
      · exact Or.inr (Or.inr ⟨e1, by simp [eval_ast, he1], herr⟩)
  | binary op l r s e ihl ihr =>
    intro hwf ch dc dk ext rest stk h
    simp only [wfAstB, Bool.and_eq_true] at hwf
    obtain ⟨⟨hop, hwl⟩, hwr⟩ := hwf
    obtain ⟨dcl, dkl, hl, _⟩ := compile_wf l hwl ch
    obtain ⟨dcr, dkr, hr, _⟩ := compile_wf r hwr ⟨ch.code ++ dcl, ch.consts ++ dkl⟩
    simp only [compile_ast_to_bytecode, hl, hr, emit_bytecode, Except.ok.injEq, Chunk.mk.injEq,
      List.append_assoc] at h
    obtain ⟨h1, h2⟩ := h
    replace h1 := List.append_cancel_left h1
    replace h2 := List.append_cancel_left h2
    subst h1; subst h2
    have IHl := ihl hwl ch dcl dkl (dkr ++ ext)
      (dcr ++ (⟨opcodeOfKind op, 0⟩ :: rest)) stk hl
    simp only [List.append_assoc, List.singleton_append, List.cons_append,
      List.nil_append] at IHl ⊢
    rcases IHl with hover | ⟨a, ha, hcontl⟩ | ⟨e1, he1, herrl⟩
    · exact Or.inl hover
    · have IHr := ihr hwr ⟨ch.code ++ dcl, ch.consts ++ dkl⟩ dcr dkr ext
        (⟨opcodeOfKind op, 0⟩ :: rest) (a :: stk) hr
      simp only [List.append_assoc, List.singleton_append, List.cons_append,
        List.nil_append] at IHr
      rcases IHr with hover | ⟨b, hb, hcontr⟩ | ⟨e1, he1, herrr⟩
      · exact Or.inl (by rw [hcontl]; exact hover)
      · rw [hcontl, hcontr, vmStep_binop F _ _ a b stk op hop]
        cases hbe : binOpEval F op a b with
        | ok w =>
          by_cases hpush : MAX_STACK_SIZE ≤ stk.length
          · exact Or.inl (by simp [hpush])
          · exact Or.inr (Or.inl ⟨w, by simp [eval_ast, ha, hb, hbe],
              by simp [hpush]⟩)
        | error e1 =>
          exact Or.inr (Or.inr ⟨e1, by simp [eval_ast, ha, hb, hbe], by simp⟩)
      · exact Or.inr (Or.inr ⟨e1, by simp [eval_ast, ha, he1],
          by rw [hcontl]; exact herrr⟩)
    · exact Or.inr (Or.inr ⟨e1, by simp [eval_ast, he1], herrl⟩)

/-- Overflow necessity: if evaluation of a well-formed tree succeeds
(so no division-by-zero abort can intervene) but the starting stack
leaves less room than `maxPending t`, executing the compiled code
necessarily dies with `stackOverflow`: the peak operand demand is
actually reached. -/
theorem runCompiledOverflow (F : FOps) : ∀ t : Ast, wfAstB t = true →
    ∀ (ch : Chunk) (dc : List Bytecode) (dk ext : List ℚ)
      (rest : List Bytecode) (stk : List ℚ) (v : ℚ),
    compile_ast_to_bytecode ch t = .ok ⟨ch.code ++ dc, ch.consts ++ dk⟩ →
    eval_ast F t = .ok v →
    MAX_STACK_SIZE < stk.length + maxPending t →
    run_vm F (ch.consts ++ (dk ++ ext)) (dc ++ rest) stk = .error .stackOverflow := by
  intro t
  induction t with
  | num v0 s e =>
    intro _ ch dc dk ext rest stk v h hev hover
    simp only [compile_ast_to_bytecode, add_constant, emit_bytecode, Except.ok.injEq, Chunk.mk.injEq] at h
    obtain ⟨h1, h2⟩ := h
    replace h1 := List.append_cancel_left h1
    replace h2 := List.append_cancel_left h2
    subst h1; subst h2
    have hget : (ch.consts ++ v0 :: ext).get? ch.consts.length = some v0 :=
      getq_append_mid ch.consts v0 ext
    simp only [List.singleton_append]
    rw [vmStep_const F _ _ _ _ _ hget,
      if_pos (show MAX_STACK_SIZE ≤ stk.length by
        simp only [maxPending] at hover; omega)]
  | unary op c s e ih =>
    intro hwf ch dc dk ext rest stk v h hev hover
    simp only [wfAstB, Bool.and_eq_true, Bool.or_eq_true, decide_eq_true_eq] at hwf
    obtain ⟨dcc, dkc, hc, -⟩ := compile_wf c hwf.2 ch
    rcases hwf.1 with h1 | h1 <;> subst h1
    · simp only [compile_ast_to_bytecode, hc, emit_bytecode, Except.ok.injEq, Chunk.mk.injEq,
        List.append_assoc] at h
      obtain ⟨h1, h2⟩ := h
      replace h1 := List.append_cancel_left h1
      replace h2 := List.append_cancel_left h2
      subst h1; subst h2
      simp only [eval_ast] at hev
      cases hcv : eval_ast F c with
      | error e1 => simp [hcv] at hev
      | ok a =>
        have IH := ih hwf.2 ch dcc dkc ext (⟨.negate, 0⟩ :: rest) stk a hc hcv
          (by simpa [maxPending] using hover)
        rw [List.append_assoc, List.singleton_append]
        exact IH
    · simp only [compile_ast_to_bytecode, hc, Except.ok.injEq, Chunk.mk.injEq] at h
      obtain ⟨h1, h2⟩ := h
      replace h1 := List.append_cancel_left h1
      replace h2 := List.append_cancel_left h2
      subst h1; subst h2
      simp only [eval_ast] at hev
      exact ih hwf.2 ch dcc dkc ext rest stk v hc hev
        (by simpa [maxPending] using hover)
  | binary op l r s e ihl ihr =>
    intro hwf ch dc dk ext rest stk v h hev hover
    simp only [wfAstB, Bool.and_eq_true] at hwf
    obtain ⟨⟨hop, hwl⟩, hwr⟩ := hwf
    obtain ⟨dcl, dkl, hl, -⟩ := compile_wf l hwl ch
    obtain ⟨dcr, dkr, hr, -⟩ := compile_wf r hwr ⟨ch.code ++ dcl, ch.consts ++ dkl⟩
    simp only [compile_ast_to_bytecode, hl, hr, emit_bytecode, Except.ok.injEq, Chunk.mk.injEq,
      List.append_assoc] at h
    obtain ⟨h1, h2⟩ := h
    replace h1 := List.append_cancel_left h1
    replace h2 := List.append_cancel_left h2
    subst h1; subst h2
    cases hlv : eval_ast F l with
    | error e1 => simp [eval_ast, hlv] at hev
    | ok a =>
      cases hrv : eval_ast F r with
      | error e1 => simp [eval_ast, hlv, hrv] at hev
      | ok b =>
        by_cases hl255 : MAX_STACK_SIZE < stk.length + maxPending l
        · have IH := ihl hwl ch dcl dkl (dkr ++ ext)
            (dcr ++ (⟨opcodeOfKind op, 0⟩ :: rest)) stk a hl hlv hl255
          simp only [List.append_assoc, List.singleton_append, List.cons_append,
            List.nil_append] at IH ⊢
          exact IH
        · have hrooml : stk.length + maxPending l ≤ MAX_STACK_SIZE := by omega
          have IHl := (runCompiled F l hwl ch dcl dkl (dkr ++ ext)
            (dcr ++ (⟨opcodeOfKind op, 0⟩ :: rest)) stk hl hrooml).1 a hlv
          have hr255 : MAX_STACK_SIZE < (a :: stk).length + maxPending r := by
            simp only [List.length_cons]
            simp only [maxPending] at hover; omega
          have IHr := ihr hwr ⟨ch.code ++ dcl, ch.consts ++ dkl⟩ dcr dkr ext
            (⟨opcodeOfKind op, 0⟩ :: rest) (a :: stk) b hr hrv hr255
          simp only [List.append_assoc, List.singleton_append, List.cons_append,
            List.nil_append] at IHl IHr ⊢
          rw [IHl]
          exact IHr

/-! ### Parser invariants -/

/-- Every non-number token the tokenizer emits is a single-character
token: its span is one position (`start = end`). -/
def okSpanTok (tok : Token) : Prop := tok.kind ≠ .number → tok.start = tok.stop

/-- A token kind with positive left binding power is one of the six
binary operators. -/
theorem binding_power_pos_six (k : TokenKind) (h : 0 < get_left_binding_power k) :
    (k = .plus || k = .minus || k = .star || k = .slash ||
     k = .percent || k = .caret) = true := by
  cases k <;> simp_all [get_left_binding_power]

/-- Invariant of every tree the parser builds (given that operator
tokens span a single position): all operator kinds are well formed
(`wfAstB`), binary nodes span left child's start to right child's end,
unary nodes carry the operator token's single-position span
(`spanOkB`); moreover the unconsumed tokens are a suffix of the
input. -/
theorem parser_inv : ∀ fuel : Nat,
    (∀ bp toks o rest, (∀ tok ∈ toks, okSpanTok tok) →
      parse_expression fuel bp toks = .ok (o, rest) →
      (∀ t, o = some t → wfAstB t = true ∧ spanOkB t = true) ∧ rest <:+ toks)
    ∧ (∀ tok toks t rest, okSpanTok tok → (∀ tk ∈ toks, okSpanTok tk) →
      parseHead fuel tok toks = .ok (t, rest) →
      (wfAstB t = true ∧ spanOkB t = true) ∧ rest <:+ toks)
    ∧ (∀ bp lhs toks t rest, (∀ tk ∈ toks, okSpanTok tk) →
      wfAstB lhs = true ∧ spanOkB lhs = true →
      parseLoop fuel bp lhs toks = .ok (t, rest) →
      (wfAstB t = true ∧ spanOkB t = true) ∧ rest <:+ toks) := by
  intro fuel
  induction fuel with
  | zero =>
    refine ⟨?_, ?_, ?_⟩ <;> intros <;> simp_all [parse_expression, parseHead, parseLoop]
  | succ f ih =>
    obtain ⟨ihE, ihH, ihL⟩ := ih
    refine ⟨?_, ?_, ?_⟩
    · -- parse_expression
      intro bp toks o rest htoks h
      cases toks with
      | nil =>
        simp only [parse_expression, Except.ok.injEq, Prod.mk.injEq] at h
        obtain ⟨rfl, rfl⟩ := h
        exact ⟨fun t ht => Option.noConfusion ht, List.nil_suffix⟩
      | cons tok rest0 =>
        by_cases hk : tok.kind = .eof
        · simp only [parse_expression, hk, if_pos, Except.ok.injEq, Prod.mk.injEq] at h
          obtain ⟨rfl, rfl⟩ := h
          exact ⟨fun t ht => Option.noConfusion ht, List.suffix_refl _⟩
        · simp only [parse_expression, hk, if_neg, if_false] at h
          cases hph : parseHead f tok rest0 with
          | error e1 => simp [hph] at h
          | ok pr =>
            obtain ⟨lhs, rest2⟩ := pr
            simp only [hph] at h
            cases hpl : parseLoop f bp lhs rest2 with
            | error e1 => simp [hpl] at h
            | ok pr2 =>
              obtain ⟨node, rest3⟩ := pr2
              simp only [hpl] at h
              simp only [Except.ok.injEq, Prod.mk.injEq] at h
              obtain ⟨rfl, rfl⟩ := h
              have h0 : okSpanTok tok := htoks tok (by simp)
              have h1 : ∀ tk ∈ rest0, okSpanTok tk :=
                fun tk hm => htoks tk (List.mem_cons_of_mem _ hm)
              obtain ⟨hinv, hsfx2⟩ := ihH tok rest0 lhs rest2 h0 h1 hph
              have h2 : ∀ tk ∈ rest2, okSpanTok tk := fun tk hm => h1 tk (hsfx2.subset hm)
              obtain ⟨hinv3, hsfx3⟩ := ihL bp lhs rest2 node rest3 h2 hinv hpl
              refine ⟨by intro t ht; injection ht with ht; subst ht; exact hinv3, ?_⟩
              exact (hsfx3.trans hsfx2).trans (List.suffix_cons tok rest0)
    · -- parseHead
      intro tok toks t rest htok htoks h
      by_cases hk1 : tok.kind = .number
      · simp only [parseHead, hk1, if_pos, Except.ok.injEq, Prod.mk.injEq] at h
        obtain ⟨rfl, rfl⟩ := h
        exact ⟨⟨rfl, rfl⟩, List.suffix_refl _⟩
      · by_cases hk2 : tok.kind = .minus ∨ tok.kind = .plus
        · simp only [parseHead, hk1, hk2, if_neg, if_pos, if_true, if_false] at h
          cases hpe : parse_expression f 10 toks with
          | error e1 => simp [hpe] at h
          | ok pr =>
            obtain ⟨o2, rest2⟩ := pr
            simp only [hpe] at h
            cases o2 with
            | none => simp at h
            | some rhs =>
              simp only [Except.ok.injEq, Prod.mk.injEq] at h
              obtain ⟨rfl, rfl⟩ := h
              obtain ⟨hinv, hsfx⟩ := ihE 10 toks (some rhs) rest2 htoks hpe
              obtain ⟨hw, hs⟩ := hinv rhs rfl
              have hse : tok.start = tok.stop := htok (by rcases hk2 with h | h <;> simp [h])
              refine ⟨⟨?_, ?_⟩, hsfx⟩
              · rcases hk2 with h | h <;> simp [wfAstB, h, hw]
              · simp [spanOkB, hse, hs]
        · by_cases hk3 : tok.kind = .lparen
          · simp only [parseHead, hk1, hk2, hk3, if_neg, if_pos, if_true, if_false] at h
            cases hpe : parse_expression f 0 toks with
            | error e1 => simp [hpe] at h
            | ok pr =>
              obtain ⟨o2, rest2⟩ := pr
              simp only [hpe] at h
              cases o2 with
              | none => simp at h
              | some inner =>
                cases rest2 with
                | nil => simp at h
                | cons t2 rest3 =>
                  by_cases hk4 : t2.kind = .eof
                  · simp [hk4] at h
                  · by_cases hk5 : t2.kind = .rparen
                    · simp only [hk4, hk5, if_neg, if_pos, if_true, if_false,
                        Except.ok.injEq, Prod.mk.injEq] at h
                      obtain ⟨rfl, rfl⟩ := h
                      obtain ⟨hinv, hsfx⟩ := ihE 0 toks (some t) (t2 :: rest) htoks hpe
                      exact ⟨hinv t rfl,
                        ((List.suffix_cons t2 rest).trans hsfx)⟩
                    · simp [hk4, hk5] at h
          · simp [parseHead, hk1, hk2, hk3] at h
    · -- parseLoop
      intro bp lhs toks t rest htoks hinv h
      cases toks with
      | nil =>
        simp only [parseLoop, Except.ok.injEq, Prod.mk.injEq] at h
        obtain ⟨rfl, rfl⟩ := h
        exact ⟨hinv, List.nil_suffix⟩
      | cons next rest0 =>
        by_cases hk : next.kind = .eof
        · simp only [parseLoop, hk, if_pos, Except.ok.injEq, Prod.mk.injEq] at h
          obtain ⟨rfl, rfl⟩ := h
          exact ⟨hinv, List.suffix_refl _⟩
        · by_cases hbp : get_left_binding_power next.kind ≤ bp
          · simp only [parseLoop, hk, hbp, if_neg, if_pos, if_true, if_false,
              Except.ok.injEq, Prod.mk.injEq] at h
            obtain ⟨rfl, rfl⟩ := h
            exact ⟨hinv, List.suffix_refl _⟩
          · simp only [parseLoop, hk, hbp, if_neg, if_false] at h
            cases hpe : parse_expression f (get_right_binding_power next.kind) rest0 with
            | error e1 => simp [hpe] at h
            | ok pr =>
              obtain ⟨o2, rest2⟩ := pr
              simp only [hpe] at h
              cases o2 with
              | none => simp at h
              | some rhs =>
                have h1 : ∀ tk ∈ rest0, okSpanTok tk :=
                  fun tk hm => htoks tk (List.mem_cons_of_mem _ hm)
                obtain ⟨hinv2, hsfx2⟩ := ihE (get_right_binding_power next.kind) rest0 (some rhs) rest2 h1 hpe
                obtain ⟨hwr, hsr⟩ := hinv2 rhs rfl
                have hsix := binding_power_pos_six next.kind (by omega)
                have hinvNew : wfAstB (.binary next.kind lhs rhs lhs.startPos rhs.stopPos) = true ∧
                    spanOkB (.binary next.kind lhs rhs lhs.startPos rhs.stopPos) = true := by
                  refine ⟨?_, ?_⟩
                  · simp [wfAstB, hsix, hinv.1, hwr]
                  · simp [spanOkB, hinv.2, hsr]
                have h2 : ∀ tk ∈ rest2, okSpanTok tk := fun tk hm => h1 tk (hsfx2.subset hm)
                obtain ⟨hinv3, hsfx3⟩ := ihL bp _ rest2 t rest h2 hinvNew h
                exact ⟨hinv3, (hsfx3.trans hsfx2).trans (List.suffix_cons next rest0)⟩

/-- A successful `parse_number` always yields a `number` token. -/
theorem parse_number_kind : ∀ (pos : Nat) (cs : List Char) (tok : Token) (p : Nat)
    (r : List Char), parse_number pos cs = .ok (tok, p, r) → tok.kind = .number := by
  intro pos cs tok p r h
  simp only [parse_number] at h
  split at h
  · simp at h
  · split at h
    · simp at h
    · simp only [Except.ok.injEq, Prod.mk.injEq] at h
      obtain ⟨h1, -⟩ := h
      rw [← h1]

/-- Tokenizer invariant: every non-number token produced by
`tokenize` spans a single source position (operators, parens and the
EndOfFile sentinel are all created with `start = end`). -/
theorem tokenize_ops_point : ∀ (fuel pos : Nat) (cs : List Char) (toks : List Token),
    tokenizeAux fuel pos cs = .ok toks → ∀ tok ∈ toks, okSpanTok tok := by
  intro fuel
  induction fuel with
  | zero => intro pos cs toks h; simp [tokenizeAux] at h
  | succ f ih =>
    intro pos cs toks h
    cases cs with
    | nil =>
      simp only [tokenizeAux, Except.ok.injEq] at h
      subst h
      intro tok hm
      simp only [List.mem_singleton] at hm
      subst hm
      intro _; rfl
    | cons c rest =>
      simp only [tokenizeAux] at h
      by_cases hsp : isSpaceC c
      · rw [if_pos hsp] at h
        exact ih (pos + 1) rest toks h
      · rw [if_neg hsp] at h
        have opcase : ∀ (k : TokenKind) (toks' : List Token),
            tokenizeAux f (pos + 1) rest = .ok toks' →
            ∀ tok ∈ opToken k pos :: toks', okSpanTok tok := by
          intro k toks' hrec tok hm
          rcases List.mem_cons.1 hm with hm | hm
          · subst hm; intro _; rfl
          · exact ih (pos + 1) rest toks' hrec tok hm
        have numcase : ∀ (tok0 : Token) (pos' : Nat) (rest' : List Char)
            (toks' : List Token),
            parse_number pos (c :: rest) = .ok (tok0, pos', rest') →
            tokenizeAux f pos' rest' = .ok toks' →
            ∀ tok ∈ tok0 :: toks', okSpanTok tok := by
          intro tok0 pos' rest' toks' hpn hrec tok hm
          rcases List.mem_cons.1 hm with hm | hm
          · subst hm
            intro hne
            exact absurd (parse_number_kind pos (c :: rest) _ pos' rest' hpn) hne
          · exact ih pos' rest' toks' hrec tok hm
        by_cases h1 : c = '-'
        · rw [if_pos h1] at h
          cases rest with
          | nil =>
            cases hrec : tokenizeAux f (pos + 1) [] with
            | error e => simp [hrec, Except.map] at h
            | ok toks' =>
              simp only [hrec, Except.map, Except.ok.injEq] at h
              subst h
              exact opcase .minus toks' hrec
          | cons d rest1 =>
            dsimp only at h
            by_cases hd : d.isDigit
            · rw [if_pos hd] at h
              cases hpn : parse_number pos (c :: d :: rest1) with
              | error e => simp [hpn] at h
              | ok tr =>
                obtain ⟨tok0, pos', rest'⟩ := tr
                simp only [hpn] at h
                cases hrec : tokenizeAux f pos' rest' with
                | error e => simp [hrec, Except.map] at h
                | ok toks' =>
                  simp only [hrec, Except.map, Except.ok.injEq] at h
                  subst h
                  exact numcase tok0 pos' rest' toks' hpn hrec
            · rw [if_neg hd] at h
              cases hrec : tokenizeAux f (pos + 1) (d :: rest1) with
              | error e => simp [hrec, Except.map] at h
              | ok toks' =>
                simp only [hrec, Except.map, Except.ok.injEq] at h
                subst h
                exact opcase .minus toks' hrec
        · rw [if_neg h1] at h
          have hops : ∀ (k : TokenKind),
              ((tokenizeAux f (pos + 1) rest).map (opToken k pos :: ·)) = .ok toks →
              ∀ tok ∈ toks, okSpanTok tok := by
            intro k hmap
            cases hrec : tokenizeAux f (pos + 1) rest with
            | error e => simp [hrec, Except.map] at hmap
            | ok toks' =>
              simp only [hrec, Except.map, Except.ok.injEq] at hmap
              subst hmap
              exact opcase k toks' hrec
          by_cases h2 : c = '+'
          · rw [if_pos h2] at h; exact hops .plus h
          · rw [if_neg h2] at h
            by_cases h3 : c = '*'
            · rw [if_pos h3] at h; exact hops .star h
            · rw [if_neg h3] at h
              by_cases h4 : c = '/'
              · rw [if_pos h4] at h; exact hops .slash h
              · rw [if_neg h4] at h
                by_cases h5 : c = '%'
                · rw [if_pos h5] at h; exact hops .percent h
                · rw [if_neg h5] at h
                  by_cases h6 : c = '^'
                  · rw [if_pos h6] at h; exact hops .caret h
                  · rw [if_neg h6] at h
                    by_cases h7 : c = '('
                    · rw [if_pos h7] at h; exact hops .lparen h
                    · rw [if_neg h7] at h
                      by_cases h8 : c = ')'
                      · rw [if_pos h8] at h; exact hops .rparen h
                      · rw [if_neg h8] at h
                        by_cases h9 : c.isDigit
                        · rw [if_pos h9] at h
                          cases hpn : parse_number pos (c :: rest) with
                          | error e => simp [hpn] at h
                          | ok tr =>
                            obtain ⟨tok0, pos', rest'⟩ := tr
                            simp only [hpn] at h
                            cases hrec : tokenizeAux f pos' rest' with
                            | error e => simp [hrec, Except.map] at h
                            | ok toks' =>
                              simp only [hrec, Except.map, Except.ok.injEq] at h
                              subst h
                              exact numcase tok0 pos' rest' toks' hpn hrec
                        · rw [if_neg h9] at h
                          simp at h

/-- Every tree produced by the full front end (tokenize + parse) is
well formed and satisfies the span invariant. -/
theorem parsed_inv : ∀ (s : String) (t : Ast), astOf s = .ok (some t) →
    wfAstB t = true ∧ spanOkB t = true := by
  intro s t h
  simp only [astOf] at h
  cases htk : tokenize s with
  | error e => simp [htk] at h
  | ok toks =>
    simp only [htk] at h
    cases hp : parse toks with
    | error e => simp [hp] at h
    | ok o =>
      simp only [hp, Except.ok.injEq] at h
      subst h
      simp only [parse] at hp
      cases hpe : parse_expression (4 * toks.length + 8) 0 toks with
      | error e => simp [hpe, Except.map] at hp
      | ok pr =>
        obtain ⟨o2, rest⟩ := pr
        simp only [hpe, Except.map, Except.ok.injEq] at hp
        subst hp
        have htoks : ∀ tok ∈ toks, okSpanTok tok :=
          tokenize_ops_point (s.length + 1) 0 s.toList toks htk
        exact ((parser_inv (4 * toks.length + 8)).1 0 toks (some t) rest htoks hpe).1 t rfl

/-! ### The deep power chain `1^1^…^1` -/

theorem deepChars_length : ∀ n, (deepChars n).length = 2 * n + 1 := by
  intro n
  induction n with
  | zero => rfl
  | succ n ih => simp [deepChars, ih]; ring

theorem deepToks_length : ∀ n pos, (deepToks n pos).length = 2 * n + 2 := by
  intro n
  induction n with
  | zero => intro pos; rfl
  | succ n ih => intro pos; simp [deepToks, ih]; ring

theorem strtod_one : strtodFull ['1'] = some 1 := by
  with_unfolding_all decide

theorem ratPow_one_one : ratPow 1 1 = 1 := by
  with_unfolding_all decide

/-- Tokenizing the power chain (with the exact fuel `tokenize`
supplies for it). -/
theorem tokenize_deep : ∀ (n pos : Nat),
    tokenizeAux (2 * n + 2) pos (deepChars n) = .ok (deepToks n pos) := by
  intro n
  induction n with
  | zero =>
    intro pos
    show tokenizeAux 2 pos ['1'] = _
    simp [tokenizeAux, parse_number, strtod_one, deepToks, isSpaceC,
      is_part_of_number, List.takeWhile, Except.map]
  | succ n ih =>
    intro pos
    rw [show 2 * (n + 1) + 2 = (2 * n + 2) + 1 + 1 by ring]
    show tokenizeAux ((2 * n + 2) + 1 + 1) pos ('1' :: '^' :: deepChars n) = _
    simp [tokenizeAux, parse_number, strtod_one, deepToks, isSpaceC,
      is_part_of_number, List.takeWhile, ih (pos + 2), opToken, Except.map]

theorem deepAst_stop : ∀ n pos, (deepAst n pos).stopPos = pos + 2 * n := by
  intro n
  induction n with
  | zero => intro pos; rfl
  | succ n ih => intro pos; simp [deepAst, Ast.stopPos]; ring

/-- Parsing the token stream of the power chain: right-nested carets,
leaving exactly the EndOfFile sentinel unconsumed.  `bp ≤ 3` covers
both the top-level call (0) and the recursive calls (3, the right
binding power of `^`). -/
theorem parse_deep : ∀ (n : Nat) (fuel pos bp : Nat), bp ≤ 3 → 2 * n + 2 ≤ fuel →
    parse_expression fuel bp (deepToks n pos) =
      .ok (some (deepAst n pos), [⟨.eof, 0, pos + 2 * n + 1, pos + 2 * n + 1⟩]) := by
  intro n
  induction n with
  | zero =>
    intro fuel pos bp hbp hfuel
    obtain ⟨f, rfl⟩ : ∃ f, fuel = f + 2 := ⟨fuel - 2, by omega⟩
    show parse_expression (f + 2) bp [⟨.number, 1, pos, pos⟩, ⟨.eof, 0, pos + 1, pos + 1⟩] = _
    simp [parse_expression, parseHead, parseLoop, deepAst]
  | succ n ih =>
    intro fuel pos bp hbp hfuel
    obtain ⟨f, rfl⟩ : ∃ f, fuel = f + 2 := ⟨fuel - 2, by omega⟩
    show parse_expression (f + 2) bp (⟨.number, 1, pos, pos⟩ :: ⟨.caret, 0, pos + 1, pos + 1⟩ ::
      deepToks n (pos + 2)) = _
    simp only [parse_expression, parseHead]
    rw [if_neg (by simp), if_pos (by simp)]
    simp only [parseLoop]
    rw [if_neg (by simp), if_neg (by simp [get_left_binding_power]; omega)]
    rw [show get_right_binding_power TokenKind.caret = 3 from rfl]
    rw [ih f (pos + 2) 3 le_rfl (by omega)]
    obtain ⟨f1, rfl⟩ : ∃ f1, f = f1 + 1 := ⟨f - 1, by omega⟩
    simp only [parseLoop]
    rw [if_pos (by simp)]
    simp only [Ast.startPos, deepAst_stop]
    have h1 : pos + 2 + 2 * n = pos + 2 * (n + 1) := by ring
    have h2 : pos + 2 + 2 * n + 1 = pos + 2 * (n + 1) + 1 := by ring
    simp [deepAst, h1, h2]
    omega

/-- The evaluator yields 1 on the power chain. -/
theorem eval_deep : ∀ (n pos : Nat), eval_ast ratOps (deepAst n pos) = .ok 1 := by
  intro n
  induction n with
  | zero => intro pos; rfl
  | succ n ih =>
    intro pos
    simp only [deepAst, eval_ast, ih (pos + 2), binOpEval]
    rw [show ratOps.powOp = ratPow from rfl, ratPow_one_one]

theorem maxPending_deepAst : ∀ n pos, maxPending (deepAst n pos) = n + 1 := by
  intro n
  induction n with
  | zero => intro pos; rfl
  | succ n ih =>
    intro pos
    show max (maxPending (.num 1 pos pos)) (maxPending (deepAst n (pos + 2)) + 1) = n + 1 + 1
    rw [ih (pos + 2)]
    simp [maxPending]

/-- Assembling a `parse` result from a `parse_expression` run, stated
symbolically so that checking it never evaluates the parser on a
concrete token list. -/
theorem parse_of_parts (toks : List Token) (n : Nat) (r : Option Ast)
    (rest : List Token) (hlen : toks.length = n)
    (hp : parse_expression (4 * n + 8) 0 toks = .ok (r, rest)) :
    parse toks = .ok r := by
  simp only [parse, hlen, hp, Except.map]

/-- Assembling an `astOf` result from tokenizer and parser results,
stated symbolically. -/
theorem astOf_of_parts (s : String) (toks : List Token) (r : Option Ast)
    (htk : tokenize s = .ok toks) (hp : parse toks = .ok r) :
    astOf s = .ok r := by
  simp only [astOf, htk, hp]

/-- Assembling an `evalPipeline` result from the front end and the
evaluator, stated symbolically. -/
theorem evalPipeline_of_parts (F : FOps) (s : String) (t : Ast) (v : ℚ)
    (hast : astOf s = .ok (some t)) (hev : eval_ast F t = .ok v) :
    evalPipeline F s = .ok (some v) := by
  simp only [evalPipeline, hast, hev]

/-- Assembling a failing `vmOnAst` result from the compiler and the VM,
stated symbolically. -/
theorem vmOnAst_of_parts (F : FOps) (t : Ast) (dc : List Bytecode)
    (dk : List ℚ) (e : VmErr)
    (hcomp : compile_ast_to_bytecode emptyChunk t = .ok ⟨dc, dk⟩)
    (hrun : run_vm F dk (dc ++ [⟨.halt, 0⟩]) [] = .error e) :
    vmOnAst F t = .error (.vmE e) := by
  simp only [vmOnAst, compileTop, hcomp, runVmChunk, emit_bytecode, hrun]

/-- Assembling a failing `vmPipeline` result from the front end and the
VM back end, stated symbolically. -/
theorem vmPipeline_of_parts (F : FOps) (s : String) (t : Ast) (e : VmErr)
    (hast : astOf s = .ok (some t)) (hvm : vmOnAst F t = .error (.vmE e)) :
    vmPipeline F s = .error (.vmE e) := by
  simp only [vmPipeline, hast, hvm]

set_option maxRecDepth 8000 in
set_option maxHeartbeats 1600000 in
/-- Tokenizing the 511-character input `1^1^…^1` (256 ones). -/
theorem tokenize_deep255 :
    tokenize (String.mk (deepChars 255)) = .ok (deepToks 255 0) := by
  simp only [tokenize]
  rw [show (String.mk (deepChars 255)).toList = deepChars 255 from rfl,
    show (String.mk (deepChars 255)).length = (deepChars 255).length from rfl,
    deepChars_length]
  exact tokenize_deep 255 0

/-- Parsing the 511-character input `1^1^…^1` (256 ones). -/
theorem astOf_deep255 :
    astOf (String.mk (deepChars 255)) = .ok (some (deepAst 255 0)) :=
  astOf_of_parts _ _ _ tokenize_deep255
    (parse_of_parts (deepToks 255 0) (2 * 255 + 2) (some (deepAst 255 0))
      [⟨.eof, 0, 0 + 2 * 255 + 1, 0 + 2 * 255 + 1⟩] (deepToks_length 255 0)
      (parse_deep 255 (4 * (2 * 255 + 2) + 8) 0 0 (by norm_num) (by norm_num)))

/-- The VM path overflows the 255-slot stack on the deep power chain. -/
theorem vmOnAst_deep255 :
    vmOnAst ratOps (deepAst 255 0) = .error (.vmE .stackOverflow) := by
  have hwf : wfAstB (deepAst 255 0) = true := (parsed_inv _ _ astOf_deep255).1
  obtain ⟨dc, dk, hcomp, -⟩ := compile_wf (deepAst 255 0) hwf emptyChunk
  have hcomp' : compile_ast_to_bytecode emptyChunk (deepAst 255 0) = .ok ⟨dc, dk⟩ := by
    simpa [emptyChunk] using hcomp
  refine vmOnAst_of_parts ratOps _ dc dk .stackOverflow hcomp' ?_
  have hover := runCompiledOverflow ratOps (deepAst 255 0) hwf emptyChunk dc dk []
    [⟨.halt, 0⟩] [] 1 hcomp (eval_deep 255 0)
    (by rw [maxPending_deepAst]; norm_num [MAX_STACK_SIZE])
  simpa [emptyChunk] using hover

/-- End-to-end facts about the 511-character input `1^1^…^1`
(256 ones): it tokenizes and parses, the evaluator returns 1, its
compiled code needs 256 simultaneous stack slots, and the VM run
overflows the 255-slot stack. -/
theorem deep_string_facts :
    astOf (String.mk (deepChars 255)) = .ok (some (deepAst 255 0)) ∧
    evalPipeline ratOps (String.mk (deepChars 255)) = .ok (some 1) ∧
    vmPipeline ratOps (String.mk (deepChars 255)) = .error (.vmE .stackOverflow) ∧
    maxPending (deepAst 255 0) = 256 :=
  ⟨astOf_deep255,
   evalPipeline_of_parts ratOps _ _ 1 astOf_deep255 (eval_deep 255 0),
   vmPipeline_of_parts ratOps _ _ .stackOverflow astOf_deep255 vmOnAst_deep255,
   maxPending_deepAst 255 0⟩

/-! ### Claims -/

set_option maxRecDepth 8000

/-- C1, counterexample: the claim as stated — tokenize/parse succeed
and evaluation raises no division-by-zero, hence the two back ends
agree — is falsified by the input `1^1^…^1` with 256 ones: the
tree-walking evaluator returns 1, but the VM path aborts with a stack
overflow and produces no number at all. -/
theorem c1_counterexample :
    evalPipeline ratOps (String.mk (deepChars 255)) = .ok (some 1) ∧
    vmPipeline ratOps (String.mk (deepChars 255)) = .error (.vmE .stackOverflow) ∧
    evalPipeline ratOps (String.mk (deepChars 255)) ≠
      vmPipeline ratOps (String.mk (deepChars 255)) := by
  refine ⟨deep_string_facts.2.1, deep_string_facts.2.2.1, ?_⟩
  rw [deep_string_facts.2.1, deep_string_facts.2.2.1]
  simp

/-- C1 (amended): for every input string that tokenizes and parses,
whose evaluation does not trigger an arithmetic error, *and whose
compiled code never needs more than the VM's 255 operand-stack slots*,
the tree-walking evaluator and the compile-then-run-VM path produce
the same result — for any interpretation `F` of the double
primitives, hence in particular for IEEE doubles. -/
theorem c1_oracle_equiv (F : FOps) (s : String) (t : Ast) (v : ℚ)
    (hast : astOf s = .ok (some t)) (hev : eval_ast F t = .ok v)
    (hroom : maxPending t ≤ MAX_STACK_SIZE) :
    evalPipeline F s = .ok (some v) ∧ vmPipeline F s = .ok (some v) := by
  have hwf : wfAstB t = true := eval_ok_wf F t v hev
  refine ⟨by simp only [evalPipeline, hast, hev], ?_⟩
  obtain ⟨dc, dk, hcomp, -⟩ := compile_wf t hwf emptyChunk
  have hcomp' : compile_ast_to_bytecode emptyChunk t = .ok ⟨dc, dk⟩ := by
    simpa [emptyChunk] using hcomp
  have hrun := (runCompiled F t hwf emptyChunk dc dk [] [⟨.halt, 0⟩] []
    hcomp (by simpa using hroom)).1 v hev
  simp only [emptyChunk, List.nil_append, List.append_nil] at hrun
  have hhalt : run_vm F dk [⟨.halt, 0⟩] [v] = .ok v := vmStep_halt F dk 0 [] v []
  simp only [vmPipeline, hast, vmOnAst, compileTop, hcomp', runVmChunk, emit_bytecode,
    hrun, hhalt]

/-- C1 witness: the amended oracle equivalence at the concrete input
`"2^3"` (power of two small integers, both paths returning 8). -/
theorem c1_oracle_equiv_witness :
    evalPipeline ratOps "2^3" = .ok (some 8) ∧ vmPipeline ratOps "2^3" = .ok (some 8) :=
  c1_oracle_equiv ratOps "2^3"
    (.binary .caret (.num 2 0 0) (.num 3 2 2) 0 2) 8
    (by with_unfolding_all decide) (by with_unfolding_all decide) (by decide)

/-- C2: the scanner bug the spec flags.  `is_part_of_number` accepts
`+` and `-` unconditionally — the function cannot even see the
preceding character, so the "only after `e`/`E`" rule of the spec is
not implemented.  Consequently the digit run of `"1+2"` absorbs the
`+` and dies as the invalid literal `"1+2"`, instead of lexing as
`1`, `+`, `2`; the exponent form `"1e+2"` still lexes (as 100), which
is the only case where the spec permits the sign. -/
theorem c2_scanner_behavior :
    is_part_of_number '+' = true ∧ is_part_of_number '-' = true ∧
    tokenize "1+2" = .error .invalidNumber ∧
    tokenize "1e+2" = .ok [⟨.number, 100, 0, 3⟩, ⟨.eof, 0, 4, 4⟩] := by
  refine ⟨by decide, by decide, ?_, ?_⟩ <;> with_unfolding_all decide

/-- C3: what the pipeline actually does on the four spec inputs.  The
spaceless `"2+3*4"` and `"(2+3)*4"` do **not** evaluate to 14 and 20:
the permissive number scanner absorbs `+3` into the digit run and the
lexer aborts with the invalid literal `"2+3"` (the defect §9 of the
spec flags; the spaced variants give the claimed values).  `"2^3^2"`
evaluates to 512 (right-associative power) and `"-2^2"` to 4 on both
back ends — though `-2` is lexed as a negative literal, not parsed as
a unary minus. -/
theorem c3_pipeline_values :
    evalPipeline ratOps "2+3*4" = .error (.lexE .invalidNumber) ∧
    evalPipeline ratOps "(2+3)*4" = .error (.lexE .invalidNumber) ∧
    evalPipeline ratOps "2^3^2" = .ok (some 512) ∧
    vmPipeline ratOps "2^3^2" = .ok (some 512) ∧
    evalPipeline ratOps "-2^2" = .ok (some 4) ∧
    vmPipeline ratOps "-2^2" = .ok (some 4) ∧
    evalPipeline ratOps "2 + 3 * 4" = .ok (some 14) ∧
    evalPipeline ratOps "(2 + 3) * 4" = .ok (some 20) := by
  refine ⟨?_, ?_, ?_, ?_, ?_, ?_, ?_, ?_⟩ <;> with_unfolding_all decide

/-- C4, counterexample: `"(2+3"` does not fail with
ExpectedCloseParen — it dies earlier, in the lexer, because the digit
run absorbs `+3` and `"2+3"` is an invalid literal. -/
theorem c4_counterexample :
    evalPipeline ratOps "(2+3" = .error (.lexE .invalidNumber) ∧
    evalPipeline ratOps "(2+3" ≠ .error (.synE .expectedCloseParen) := by
  constructor
  · with_unfolding_all decide
  · intro hc
    have : evalPipeline ratOps "(2+3" = .error (.lexE .invalidNumber) := by
      with_unfolding_all decide
    rw [this] at hc
    simp at hc

/-- C4 (amended): `"2 + "` fails with ExpectedOperand (the parser's
"Expected right hand side"); `"(2+3"` fails in the *lexer* with
InvalidNumber (scanner bug); even with separating spaces, `"(2 + 3"`
fails with the EOF exit of `get_next_token` (UnexpectedEof), because
that check fires before the `Expected ')'` comparison; `"@"` fails
with UnknownCharacter. -/
theorem c4_error_kinds :
    evalPipeline ratOps "2 + " = .error (.synE .expectedRhs) ∧
    evalPipeline ratOps "(2+3" = .error (.lexE .invalidNumber) ∧
    evalPipeline ratOps "(2 + 3" = .error (.synE .unexpectedEof) ∧
    tokenize "@" = .error .unknownChar := by
  refine ⟨?_, ?_, ?_, ?_⟩ <;> with_unfolding_all decide

/-- C5, counterexample: on input `"- 2"` the parser produces a Unary
node whose span is the minus token's single position `[0, 0]`, while
its child — the rightmost descendant — ends at position 2: a
composite node does *not* span to the rightmost descendant's end. -/
theorem c5_counterexample :
    astOf "- 2" = .ok (some (.unary .minus (.num 2 2 2) 0 0)) ∧
    (Ast.unary .minus (.num 2 2 2) 0 0).stopPos < (Ast.num 2 2 2).stopPos := by
  constructor
  · with_unfolding_all decide
  · decide

/-- C5 (amended): every parsed node carries an *inclusive*
`[start, end]` span; a leaf carries its literal token's span (so
`"23"` gives `[0, 1]`, end = last character, not one past); a Binary
node spans from its left child's start to its right child's end; a
Unary node carries only its operator token's single-position span
(`start = end`), not extending over the child. -/
theorem c5_spans :
    (∀ (s : String) (t : Ast), astOf s = .ok (some t) → spanOkB t = true) ∧
    astOf "23" = .ok (some (.num 23 0 1)) ∧
    astOf "- 2" = .ok (some (.unary .minus (.num 2 2 2) 0 0)) := by
  refine ⟨fun s t h => (parsed_inv s t h).2, ?_, ?_⟩ <;> with_unfolding_all decide

/-- C5 witness: the span invariant evaluated on the parse of
`"1 + 2"`. -/
theorem c5_spans_witness :
    spanOkB (.binary .plus (.num 1 0 0) (.num 2 4 4) 0 4) = true :=
  c5_spans.1 "1 + 2" (.binary .plus (.num 1 0 0) (.num 2 4 4) 0 4)
    (by with_unfolding_all decide)

/-- C6: in both back ends `/` and `%` fail with DivisionByZero exactly
when the fully evaluated right operand equals 0, and then no numeric
result is produced.  The first conjunct states it for the evaluator
(any primitive interpretation `F`), the second for the VM's DIVIDE and
MODULO instructions; the rest evaluates the spec inputs `"5 / 0"` and
`"5 % 0"` on both paths. -/
theorem c6_div_by_zero :
    (∀ (F : FOps) (l r : Ast) (sp ep : Nat) (a b : ℚ),
      eval_ast F l = .ok a → eval_ast F r = .ok b →
      ((eval_ast F (.binary .slash l r sp ep) = .error .divisionByZero ↔ b = 0) ∧
       (eval_ast F (.binary .percent l r sp ep) = .error .divisionByZero ↔ b = 0) ∧
       (b ≠ 0 → eval_ast F (.binary .slash l r sp ep) = .ok (F.div a b) ∧
                eval_ast F (.binary .percent l r sp ep) = .ok (F.fmodOp a b)))) ∧
    (∀ (F : FOps) (consts : List ℚ) (i : Nat) (rest : List Bytecode)
      (a b : ℚ) (s : List ℚ), b = 0 →
      run_vm F consts (⟨.div, i⟩ :: rest) (b :: a :: s) = .error .divisionByZero ∧
      run_vm F consts (⟨.mod, i⟩ :: rest) (b :: a :: s) = .error .divisionByZero) ∧
    evalPipeline ratOps "5 / 0" = .error (.arithE .divisionByZero) ∧
    vmPipeline ratOps "5 / 0" = .error (.vmE .divisionByZero) ∧
    evalPipeline ratOps "5 % 0" = .error (.arithE .divisionByZero) ∧
    vmPipeline ratOps "5 % 0" = .error (.vmE .divisionByZero) := by
  refine ⟨?_, ?_, ?_, ?_, ?_, ?_⟩
  · intro F l r sp ep a b hl hr
    refine ⟨?_, ?_, ?_⟩
    · simp only [eval_ast, hl, hr, binOpEval]
      by_cases hb : b = 0 <;> simp [hb]
    · simp only [eval_ast, hl, hr, binOpEval]
      by_cases hb : b = 0 <;> simp [hb]
    · intro hb
      simp [eval_ast, hl, hr, binOpEval, hb]
  · intro F consts i rest a b s hb
    subst hb
    rw [vmStep_div, vmStep_mod]
    simp
  all_goals with_unfolding_all decide

/-- C6 witness: the division-by-zero characterisation evaluated on
`5 / 0` — as an AST node for the evaluator, and as a DIVIDE
instruction with 0 on top of the stack for the VM. -/
theorem c6_div_by_zero_witness :
    (eval_ast ratOps (.binary .slash (.num 5 0 0) (.num 0 4 4) 0 4) =
      .error .divisionByZero ↔ (0 : ℚ) = 0) ∧
    run_vm ratOps [] [⟨.div, 0⟩] [(0 : ℚ), 5] = .error .divisionByZero :=
  ⟨(c6_div_by_zero.1 ratOps (.num 5 0 0) (.num 0 4 4) 0 4 5 0 rfl rfl).1,
   (c6_div_by_zero.2.1 ratOps [] 0 [] 5 0 [] rfl).1⟩

/-- C7: the stack-bound asymmetry.  First conjunct: on the input
`1^1^…^1` (256 ones) the evaluator succeeds with 1, while the VM path
aborts with StackOverflow — its compiled code needs 256 simultaneous
pending operands, one more than the 255-slot stack.  Second conjunct:
for every parsed expression needing at most 255 pending operands, the
VM path never reports StackOverflow. -/
theorem c7_stack_bound :
    (evalPipeline ratOps (String.mk (deepChars 255)) = .ok (some 1) ∧
     vmPipeline ratOps (String.mk (deepChars 255)) = .error (.vmE .stackOverflow) ∧
     astOf (String.mk (deepChars 255)) = .ok (some (deepAst 255 0)) ∧
     maxPending (deepAst 255 0) = 256) ∧
    (∀ (F : FOps) (s : String) (t : Ast), astOf s = .ok (some t) →
      maxPending t ≤ MAX_STACK_SIZE →
      vmPipeline F s ≠ .error (.vmE .stackOverflow)) := by
  refine ⟨⟨deep_string_facts.2.1, deep_string_facts.2.2.1, deep_string_facts.1,
    deep_string_facts.2.2.2⟩, ?_⟩
  intro F s t hast hroom hcontra
  have hwf : wfAstB t = true := (parsed_inv s t hast).1
  obtain ⟨dc, dk, hcomp, -⟩ := compile_wf t hwf emptyChunk
  have hcomp' : compile_ast_to_bytecode emptyChunk t = .ok ⟨dc, dk⟩ := by
    simpa [emptyChunk] using hcomp
  have hrun := runCompiled F t hwf emptyChunk dc dk [] [⟨.halt, 0⟩] []
    hcomp (by simpa using hroom)
  simp only [emptyChunk, List.nil_append, List.append_nil] at hrun
  simp only [vmPipeline, hast, vmOnAst, compileTop, hcomp', runVmChunk,
    emit_bytecode] at hcontra
  cases hev : eval_ast F t with
  | ok v =>
    rw [hrun.1 v hev, vmStep_halt] at hcontra
    exact absurd hcontra (by simp)
  | error e =>
    rw [hrun.2 e hev] at hcontra
    exact absurd hcontra (by simp)

/-- C7 witness: the no-overflow part evaluated on the one-token input
`"2"` (one pending operand). -/
theorem c7_stack_bound_witness :
    vmPipeline ratOps "2" ≠ .error (.vmE .stackOverflow) :=
  c7_stack_bound.2 ratOps "2" (.num 2 0 0)
    (by with_unfolding_all decide) (by decide)

/-- C8: the compiler's exact post-order emission scheme.  Number →
constant-pool append + `CONSTANT(index of the append)`; Unary Minus →
child then `NEGATE`; Unary Plus → child, nothing emitted; Binary →
left, right, operator opcode; on every well-formed tree the compiler
itself never emits `HALT` — the single final `HALT` is appended by the
caller (`compileTop`, modelling `process_expression`). -/
theorem c8_compile_scheme :
    (∀ (ch : Chunk) (v : ℚ) (s e : Nat), compile_ast_to_bytecode ch (.num v s e) =
      .ok ⟨ch.code ++ [⟨.constant, ch.consts.length⟩], ch.consts ++ [v]⟩) ∧
    (∀ (ch : Chunk) (c : Ast) (s e : Nat), compile_ast_to_bytecode ch (.unary .minus c s e) =
      (compile_ast_to_bytecode ch c).map (emit_bytecode · .negate 0)) ∧
    (∀ (ch : Chunk) (c : Ast) (s e : Nat), compile_ast_to_bytecode ch (.unary .plus c s e) =
      compile_ast_to_bytecode ch c) ∧
    (∀ (ch : Chunk) (op : TokenKind) (l r : Ast) (s e : Nat),
      compile_ast_to_bytecode ch (.binary op l r s e) =
      (compile_ast_to_bytecode ch l).bind fun ch2 =>
        (compile_ast_to_bytecode ch2 r).map (emit_bytecode · (opcodeOfKind op) 0)) ∧
    (∀ (t : Ast), wfAstB t = true → ∀ (ch : Chunk) (dc : List Bytecode) (dk : List ℚ),
      compile_ast_to_bytecode ch t = .ok ⟨ch.code ++ dc, ch.consts ++ dk⟩ →
      Opcode.halt ∉ dc.map Bytecode.code) ∧
    (∀ (t : Ast) (ch' : Chunk), compile_ast_to_bytecode emptyChunk t = .ok ch' →
      compileTop t = .ok (emit_bytecode ch' .halt 0)) := by
  refine ⟨?_, ?_, ?_, ?_, ?_, ?_⟩
  · intro ch v s e
    simp [compile_ast_to_bytecode, add_constant, emit_bytecode]
  · intro ch c s e
    cases hc : compile_ast_to_bytecode ch c <;> simp [compile_ast_to_bytecode, hc, Except.map]
  · intro ch c s e
    cases hc : compile_ast_to_bytecode ch c <;> simp [compile_ast_to_bytecode, hc]
  · intro ch op l r s e
    cases hl : compile_ast_to_bytecode ch l with
    | error e1 => simp [compile_ast_to_bytecode, hl, Except.bind]
    | ok ch2 =>
      cases hr : compile_ast_to_bytecode ch2 r <;>
        simp [compile_ast_to_bytecode, hl, hr, Except.bind, Except.map]
  · intro t hwf ch dc dk h
    obtain ⟨dc', dk', hc, hhalt⟩ := compile_wf t hwf ch
    rw [hc] at h
    simp only [Except.ok.injEq, Chunk.mk.injEq] at h
    obtain ⟨h1, -⟩ := h
    replace h1 := List.append_cancel_left h1
    subst h1
    simp only [List.mem_map, not_exists, not_and]
    intro b hb
    exact hhalt b hb
  · intro t ch' h
    simp [compileTop, h]

/-- C8 witness: the Number emission equation evaluated at the empty
chunk and the literal 5, plus the halt-freedom of the code compiled
for `1 + 2`. -/
theorem c8_compile_scheme_witness :
    compile_ast_to_bytecode emptyChunk (.num 5 0 0) =
      .ok ⟨emptyChunk.code ++ [⟨.constant, emptyChunk.consts.length⟩],
           emptyChunk.consts ++ [5]⟩ ∧
    Opcode.halt ∉ ([⟨.constant, 0⟩, ⟨.constant, 1⟩, ⟨.add, 0⟩] :
      List Bytecode).map Bytecode.code :=
  ⟨c8_compile_scheme.1 emptyChunk 5 0 0,
   c8_compile_scheme.2.2.2.2.1 (.binary .plus (.num 1 0 0) (.num 2 4 4) 0 4)
     (by decide) emptyChunk [⟨.constant, 0⟩, ⟨.constant, 1⟩, ⟨.add, 0⟩] [1, 2]
     (by with_unfolding_all decide)⟩

/-- C9: when a complete expression is followed by tokens that are not
a binary operator of sufficient binding power, the parser silently
returns the leading expression and the pipeline prints its value — no
syntax error.  `"2 3"` and `"2)"` both parse as the literal 2 and
evaluate to 2 on both paths. -/
theorem c9_trailing_tokens :
    astOf "2 3" = .ok (some (.num 2 0 0)) ∧
    evalPipeline ratOps "2 3" = .ok (some 2) ∧
    vmPipeline ratOps "2 3" = .ok (some 2) ∧
    astOf "2)" = .ok (some (.num 2 0 0)) ∧
    evalPipeline ratOps "2)" = .ok (some 2) := by
  refine ⟨?_, ?_, ?_, ?_, ?_⟩ <;> with_unfolding_all decide

/-- C10: compiled code is stack-balanced with net effect +1.  For a
well-formed tree whose compiled code fits the 255-slot stack and whose
evaluation succeeds, executing the compiler's instructions from an
empty stack leaves exactly the evaluator's value, whatever follows
(`rest`) — so the final HALT's pop succeeds; and unconditionally, the
VM run of a compiled chunk never reports StackUnderflow. -/
theorem c10_stack_balance (F : FOps) (t : Ast) (hwf : wfAstB t = true) :
    (∀ (dc : List Bytecode) (dk : List ℚ),
      compile_ast_to_bytecode emptyChunk t = .ok ⟨dc, dk⟩ → maxPending t ≤ MAX_STACK_SIZE →
      ∀ (v : ℚ), eval_ast F t = .ok v →
      ∀ (rest : List Bytecode), run_vm F dk (dc ++ rest) [] = run_vm F dk rest [v]) ∧
    vmOnAst F t ≠ .error (.vmE .stackUnderflow) := by
  obtain ⟨dc0, dk0, hc0, -⟩ := compile_wf t hwf emptyChunk
  have hc0' : compile_ast_to_bytecode emptyChunk t = .ok ⟨dc0, dk0⟩ := by
    simpa [emptyChunk] using hc0
  constructor
  · intro dc dk hc hroom v hv rest
    rw [hc0'] at hc
    simp only [Except.ok.injEq, Chunk.mk.injEq] at hc
    obtain ⟨h1, h2⟩ := hc
    subst h1; subst h2
    have hrun := (runCompiled F t hwf emptyChunk dc0 dk0 [] rest []
      hc0 (by simpa using hroom)).1 v hv
    simpa [emptyChunk] using hrun
  · intro hcontra
    simp only [vmOnAst, compileTop, hc0', runVmChunk, emit_bytecode] at hcontra
    have hrun := runCompiledWeak F t hwf emptyChunk dc0 dk0 [] [⟨.halt, 0⟩] [] hc0
    simp only [emptyChunk, List.nil_append, List.append_nil] at hrun
    rcases hrun with hover | ⟨v, -, hcont⟩ | ⟨e1, -, herr⟩
    · rw [hover] at hcontra; simp at hcontra
    · rw [hcont, vmStep_halt] at hcontra; simp at hcontra
    · rw [herr] at hcontra; simp at hcontra

/-- C10 witness: both parts evaluated for the tree of `1 + 2` with
exact rational primitives. -/
theorem c10_stack_balance_witness :
    run_vm ratOps [1, 2] ([⟨.constant, 0⟩, ⟨.constant, 1⟩, ⟨.add, 0⟩] ++ [⟨.halt, 0⟩]) [] =
      run_vm ratOps [1, 2] [⟨.halt, 0⟩] [3] ∧
    vmOnAst ratOps (.binary .plus (.num 1 0 0) (.num 2 4 4) 0 4) ≠
      .error (.vmE .stackUnderflow) := by
  have h := c10_stack_balance ratOps (.binary .plus (.num 1 0 0) (.num 2 4 4) 0 4)
    (by decide)
  exact ⟨h.1 [⟨.constant, 0⟩, ⟨.constant, 1⟩, ⟨.add, 0⟩] [1, 2]
      (by with_unfolding_all decide) (by decide) 3 (by with_unfolding_all decide)
      [⟨.halt, 0⟩],
    h.2⟩

end Arith
